import Mathlib

/-!
Shallow embedding of the `context-files` crate of the codex repository
(`src/codex-rs/context-files/src/`): the context tree (`tree.rs`), its nodes
(`node.rs`), persistence (`tree_storage.rs`), entity extraction (`entity.rs`),
heuristic domain detection (`llm.rs`) and the semantic chunker (`chunker.rs`),
together with theorems settling the claims about them.

Modelling conventions:
* Rust `HashMap<String, V>` is modelled as an association list `AMap V`
  (`List (String × V)`): `insert` replaces an existing binding in place and
  appends a fresh one, so keys stay distinct exactly as in a `HashMap`;
  iteration order of the model is the insertion order (the Rust iteration
  order is arbitrary; none of the proved statements depends on it).
* `f32` confidence / strength values are modelled as rationals.
* `uuid::Uuid::new_v4()` (fresh random identifiers) is modelled by passing
  the fresh identifier as an explicit argument to the operation creating it.
* `chrono::Utc::now()` timestamps are modelled as `Nat` and play no role.
* `str::to_lowercase` is modelled by ASCII case folding (all names occurring
  in the development and in the repository data are ASCII).
-/

set_option autoImplicit false

namespace Codex

/-! ## Association-list model of `HashMap<String, V>` -/

/-- Association-list map with the update discipline of `HashMap`:
`insert` replaces in place, so keys are distinct by construction. -/
abbrev AMap (α : Type) : Type := List (String × α)

namespace AMap

variable {α : Type}

/-- `HashMap::get`: first binding of the key. -/
def find? (m : AMap α) (k : String) : Option α :=
  match m with
  | [] => none
  | (k', v) :: rest => if k' = k then some v else find? rest k

/-- `HashMap::insert`: replace the binding in place, else append. -/
def insert (m : AMap α) (k : String) (v : α) : AMap α :=
  match m with
  | [] => [(k, v)]
  | (k', v') :: rest => if k' = k then (k, v) :: rest else (k', v') :: insert rest k v

/-- `HashMap::remove` (delete the binding of the key, if any). -/
def erase (m : AMap α) (k : String) : AMap α :=
  match m with
  | [] => []
  | (k', v') :: rest => if k' = k then rest else (k', v') :: erase rest k

/-- `HashMap::contains_key`. -/
def contains (m : AMap α) (k : String) : Bool :=
  (find? m k).isSome

/-- Keys in iteration order. -/
def keys (m : AMap α) : List String :=
  m.map Prod.fst

/-- Values in iteration order. -/
def values (m : AMap α) : List α :=
  m.map Prod.snd

@[simp] theorem find?_nil (k : String) : find? ([] : AMap α) k = none := rfl

@[simp] theorem find?_cons (k' k : String) (v : α) (rest : AMap α) :
    find? ((k', v) :: rest) k = if k' = k then some v else find? rest k := rfl

@[simp] theorem insert_nil (k : String) (v : α) : insert ([] : AMap α) k v = [(k, v)] := rfl

theorem find?_insert_self (m : AMap α) (k : String) (v : α) :
    find? (insert m k v) k = some v := by
  induction m with
  | nil => simp [insert, find?]
  | cons hd tl ih =>
      obtain ⟨k', v'⟩ := hd
      by_cases h : k' = k
      · simp [insert, h, find?]
      · simp [insert, h, find?, ih]

theorem find?_insert_ne (m : AMap α) (k q : String) (v : α) (h : q ≠ k) :
    find? (insert m k v) q = find? m q := by
  induction m with
  | nil =>
      simp only [insert_nil, find?_cons, find?_nil]
      rw [if_neg (fun hh : k = q => h hh.symm)]
  | cons hd tl ih =>
      obtain ⟨k', v'⟩ := hd
      by_cases hk : k' = k
      · subst hk
        simp only [insert, find?_cons, eq_self_iff_true, if_true]
        rw [if_neg (fun hh : k' = q => h hh.symm), if_neg (fun hh : k' = q => h hh.symm)]
      · simp only [insert, if_neg hk, find?_cons, ih]

theorem find?_eq_none_of_not_mem_keys (m : AMap α) (k : String)
    (h : k ∉ keys m) : find? m k = none := by
  induction m with
  | nil => rfl
  | cons hd tl ih =>
      obtain ⟨k', v'⟩ := hd
      simp only [keys, List.map_cons, List.mem_cons, not_or] at h
      simp only [find?_cons, if_neg (fun hh : k' = k => h.1 hh.symm), ih h.2]

theorem mem_keys_of_find?_isSome (m : AMap α) (k : String)
    (h : (find? m k).isSome) : k ∈ keys m := by
  by_contra hmem
  rw [find?_eq_none_of_not_mem_keys m k hmem] at h
  simp at h

theorem find?_erase_self (m : AMap α) (k : String)
    (hnd : (keys m).Nodup) : find? (erase m k) k = none := by
  induction m with
  | nil => rfl
  | cons hd tl ih =>
      obtain ⟨k', v'⟩ := hd
      simp only [keys, List.map_cons, List.nodup_cons] at hnd
      by_cases h : k' = k
      · simp only [erase, if_pos h]
        exact find?_eq_none_of_not_mem_keys tl k (by
          intro hmem
          exact hnd.1 (h ▸ hmem))
      · simp only [erase, if_neg h, find?_cons, if_neg h]
        exact ih hnd.2

theorem find?_erase_ne (m : AMap α) (k q : String) (h : q ≠ k) :
    find? (erase m k) q = find? m q := by
  induction m with
  | nil => rfl
  | cons hd tl ih =>
      obtain ⟨k', v'⟩ := hd
      by_cases hk : k' = k
      · subst hk
        simp only [erase, eq_self_iff_true, if_true, find?_cons]
        rw [if_neg (fun hh : k' = q => h hh.symm)]
      · simp only [erase, if_neg hk, find?_cons, ih]

theorem insert_of_absent (m : AMap α) (k : String) (v : α)
    (h : find? m k = none) : insert m k v = m ++ [(k, v)] := by
  induction m with
  | nil => simp [insert]
  | cons hd tl ih =>
      obtain ⟨k', v'⟩ := hd
      simp only [find?_cons] at h
      by_cases hk : k' = k
      · simp [hk] at h
      · simp only [if_neg hk] at h
        simp only [insert, if_neg hk, ih h, List.cons_append]

theorem keys_insert_of_absent (m : AMap α) (k : String) (v : α)
    (h : find? m k = none) : keys (insert m k v) = keys m ++ [k] := by
  rw [insert_of_absent m k v h]
  simp [keys]

theorem length_insert_of_absent (m : AMap α) (k : String) (v : α)
    (h : find? m k = none) : (insert m k v).length = m.length + 1 := by
  rw [insert_of_absent m k v h]
  simp

theorem length_insert_of_present (m : AMap α) (k : String) (v w : α)
    (h : find? m k = some w) : (insert m k v).length = m.length := by
  induction m with
  | nil => simp [find?] at h
  | cons hd tl ih =>
      obtain ⟨k', v'⟩ := hd
      simp only [find?_cons] at h
      by_cases hk : k' = k
      · simp [insert, hk]
      · simp only [if_neg hk] at h
        simp [insert, hk, ih h]

end AMap

/-! ## ASCII case folding (model of `str::to_lowercase`) -/

/-- Upper-to-lower table for ASCII letters. -/
def ulTable : List (Char × Char) :=
  [('A', 'a'), ('B', 'b'), ('C', 'c'), ('D', 'd'), ('E', 'e'), ('F', 'f'),
   ('G', 'g'), ('H', 'h'), ('I', 'i'), ('J', 'j'), ('K', 'k'), ('L', 'l'),
   ('M', 'm'), ('N', 'n'), ('O', 'o'), ('P', 'p'), ('Q', 'q'), ('R', 'r'),
   ('S', 's'), ('T', 't'), ('U', 'u'), ('V', 'v'), ('W', 'w'), ('X', 'x'),
   ('Y', 'y'), ('Z', 'z')]

/-- ASCII lower-casing of a character. -/
def asciiLowerChar (c : Char) : Char :=
  ((ulTable.find? (fun p => p.1 == c)).map Prod.snd).getD c

theorem asciiLowerChar_idem (c : Char) :
    asciiLowerChar (asciiLowerChar c) = asciiLowerChar c := by
  unfold asciiLowerChar
  cases h : ulTable.find? (fun p => p.1 == c) with
  | none => simp [h]
  | some p =>
      have hp : p ∈ ulTable := List.mem_of_find?_eq_some h
      have hnone : ulTable.find? (fun q => q.1 == p.2) = none := by
        fin_cases hp <;> decide
      simp [h, hnone]

theorem mapLower_idem (l : List Char) :
    (l.map asciiLowerChar).map asciiLowerChar = l.map asciiLowerChar := by
  induction l with
  | nil => rfl
  | cons c cs ih => simp [asciiLowerChar_idem c, ih]

/-- ASCII model of `str::to_lowercase`. -/
def strLower (s : String) : String :=
  String.mk (s.data.map asciiLowerChar)

theorem strLower_idem (s : String) : strLower (strLower s) = strLower s := by
  unfold strLower
  simp only [mapLower_idem]

end Codex

namespace Codex

/-! ## Data model (`node.rs`, `entity.rs` types, `error.rs`) -/

/-- `NodeType` (node.rs). -/
inductive NodeType
  | Root
  | Domain
  | Category
  | Project
  | Module
  | Document
  | FileReference
deriving DecidableEq

/-- `CrossLinkType` (node.rs). -/
inductive CrossLinkType
  | SameTechnology
  | SameAuthor
  | References
  | SimilarTopic
  | UserDefined
  | SameEcosystem
  | SharedDependency
deriving DecidableEq

/-- `EntityType` (entity.rs). -/
inductive EntityType
  | Person
  | Project
  | Technology
  | Date
  | Location
  | Organization
  | Version
  | Url
  | Email
  | Concept
  | File
  | CodeElement
deriving DecidableEq

/-- `EntityMention` (entity.rs). -/
structure EntityMention where
  chunk_id : String
  position : Nat
  matched_text : String
  context : Option String
deriving DecidableEq

/-- `Entity` (entity.rs); `attributes` is a `HashMap<String, String>`. -/
structure Entity where
  id : String
  name : String
  normalized_name : String
  entity_type : EntityType
  confidence : ℚ
  mentions : List EntityMention
  attributes : AMap String
deriving DecidableEq

/-- `Entity::merge` (entity.rs lines 79-87): extend mentions, insert the
other's attributes only where the key is absent (`entry(k).or_insert(v)`),
keep the maximal confidence. -/
def Entity.merge (self other : Entity) : Entity :=
  { self with
    mentions := self.mentions ++ other.mentions,
    attributes := other.attributes.foldl
      (fun attrs kv => if (AMap.find? attrs kv.1).isSome then attrs else AMap.insert attrs kv.1 kv.2)
      self.attributes,
    confidence := max self.confidence other.confidence }

/-- `RelatedNode` (node.rs). -/
structure RelatedNode where
  node_id : String
  relationship : CrossLinkType
  strength : ℚ
  reason : Option String
deriving DecidableEq

/-- `ContextNode` (node.rs). `PathBuf` is modelled as `String`
(`to_string_lossy` is then the identity). -/
structure ContextNode where
  id : String
  node_type : NodeType
  name : String
  path : Option String
  depth : Nat
  summary : String
  entities : List Entity
  keywords : List String
  parent_id : Option String
  children : List String
  related_nodes : List RelatedNode
  confidence : ℚ
  last_updated : Nat
  access_count : Nat
deriving DecidableEq

/-- `ContextNode::new` (node.rs): the freshly generated uuid is passed in;
`Utc::now()` is modelled as timestamp `0` (it plays no role in any claim). -/
def ContextNode.new (freshId : String) (node_type : NodeType) (name : String) : ContextNode :=
  { id := freshId
    node_type := node_type
    name := name
    path := none
    depth := 0
    summary := ""
    entities := []
    keywords := []
    parent_id := none
    children := []
    related_nodes := []
    confidence := 1
    last_updated := 0
    access_count := 0 }

/-- `ContextNode::root`. -/
def ContextNode.rootNode (freshId : String) : ContextNode :=
  ContextNode.new freshId NodeType.Root "User Knowledge"

/-- `ContextNode::domain`. -/
def ContextNode.domainNode (freshId : String) (name : String) : ContextNode :=
  { ContextNode.new freshId NodeType.Domain name with depth := 1 }

/-- `DomainDetection` (node.rs). -/
structure DomainDetection where
  domain : String
  subcategory : Option String
  is_new_domain : Bool
  confidence : ℚ
deriving DecidableEq

/-- `ContextError` (error.rs). The wrapped error payloads (`StorageError`,
`serde_json::Error`, `std::io::Error`) are modelled as their message strings.
Note there is no `ParentNotFound` variant in the source. -/
inductive ContextError
  | notFound (msg : String)
  | conceptExists (msg : String)
  | storage (msg : String)
  | serialization (msg : String)
  | io (msg : String)
  | embedding (msg : String)
  | query (msg : String)
  | syncConflict (msg : String)
  | invalidFormat (msg : String)
deriving DecidableEq

/-- Whether an error is the `NotFound` variant (the only variant of
`ContextError` whose name matches the "ParentNotFound" of the claim). -/
def ContextError.isNotFoundVariant : ContextError → Bool
  | ContextError.notFound _ => true
  | _ => false

/-! ## The context tree (`tree.rs`) -/

/-- `ContextTree` (tree.rs). -/
structure ContextTree where
  nodes : AMap ContextNode
  root_id : String
  domain_index : AMap String
  path_index : AMap String
deriving DecidableEq

namespace ContextTree

/-- `ContextTree::new` (tree.rs lines 41-54). -/
def new (freshRootId : String) : ContextTree :=
  { nodes := [(freshRootId, ContextNode.rootNode freshRootId)]
    root_id := freshRootId
    domain_index := []
    path_index := [] }

/-- `ContextTree::get`. -/
def get (t : ContextTree) (id : String) : Option ContextNode :=
  t.nodes.find? id

/-- `ContextTree::root` panics when the root id is not in the node map;
the model returns `none` exactly in the panicking case. -/
def rootOpt (t : ContextTree) : Option ContextNode :=
  t.nodes.find? t.root_id

/-- `ContextTree::has_valid_root`. -/
def hasValidRoot (t : ContextTree) : Bool :=
  (t.nodes.find? t.root_id).isSome

/-- `ContextTree::node_count`. -/
def nodeCount (t : ContextTree) : Nat :=
  t.nodes.length

/-- `ContextTree::insert` (tree.rs lines 135-152). -/
def insert (t : ContextTree) (node : ContextNode) : ContextTree :=
  let pathIdx := match node.path with
    | some p => t.path_index.insert p node.id
    | none => t.path_index
  let domIdx :=
    if node.node_type = NodeType.Domain then
      t.domain_index.insert (strLower node.name) node.id
    else t.domain_index
  { t with
    nodes := t.nodes.insert node.id node
    path_index := pathIdx
    domain_index := domIdx }

/-- `ContextTree::remove` (tree.rs lines 157-180): unlink from the parent's
children, drop the entry under the node's path key and (for a Domain) under
its lower-cased name key. -/
def remove (t : ContextTree) (id : String) : ContextTree × Option ContextNode :=
  match t.nodes.find? id with
  | none => (t, none)
  | some node =>
      let nodes := t.nodes.erase id
      let nodes := match node.parent_id with
        | some pid =>
            match nodes.find? pid with
            | some parent =>
                nodes.insert pid
                  { parent with children := parent.children.filter (fun c => c ≠ id) }
            | none => nodes
        | none => nodes
      let pathIdx := match node.path with
        | some p => t.path_index.erase p
        | none => t.path_index
      let domIdx :=
        if node.node_type = NodeType.Domain then
          t.domain_index.erase (strLower node.name)
        else t.domain_index
      ({ t with nodes := nodes, path_index := pathIdx, domain_index := domIdx }, some node)

/-- `ContextTree::ensure_domain` (tree.rs lines 186-210). -/
def ensureDomain (t : ContextTree) (freshId : String) (domain : String) :
    ContextTree × String :=
  let domainLower := strLower domain
  match t.domain_index.find? domainLower with
  | some id => (t, id)
  | none =>
      let domainNode := { ContextNode.domainNode freshId domain with parent_id := some t.root_id }
      let nodes := match t.nodes.find? t.root_id with
        | some root => t.nodes.insert t.root_id { root with children := root.children ++ [freshId] }
        | none => t.nodes
      ({ t with
          nodes := nodes.insert freshId domainNode
          domain_index := t.domain_index.insert domainLower freshId }, freshId)

/-- `ContextTree::get_domain`. -/
def getDomain (t : ContextTree) (domain : String) : Option ContextNode :=
  match t.domain_index.find? (strLower domain) with
  | some id => t.nodes.find? id
  | none => none

/-- `ContextTree::list_domains`. -/
def listDomains (t : ContextTree) : List String :=
  t.domain_index.keys

/-- The `while let` loop of `ContextTree::get_ancestry` (tree.rs lines
226-241), fuel-bounded: `none` means the fuel ran out while the source loop
is still running (the source loop has no bound, so a run that exhausts every
fuel amount is a diverging run of the source). The accumulator conses each
visited node to the front, so it already holds the pushed vector in reversed
order: returning `acc` directly incorporates the final `ancestry.reverse()`
of the source. -/
def getAncestryAux (t : ContextTree) : Nat → Option String → List ContextNode →
    Option (List ContextNode)
  | _, none, acc => some acc
  | 0, some _, _ => none
  | fuel + 1, some id, acc =>
      match t.nodes.find? id with
      | some node => getAncestryAux t fuel node.parent_id (node :: acc)
      | none => some acc

/-- `ContextTree::get_ancestry`. Fuel `node_count + 1` is enough whenever the
parent walk is acyclic (proved below); on a cyclic walk the source diverges
and the model returns `[]`. -/
def getAncestry (t : ContextTree) (id : String) : List ContextNode :=
  (getAncestryAux t (t.nodeCount + 1) (some id) []).getD []

/-- `ContextTree::are_in_same_branch` (tree.rs lines 364-378). -/
def areInSameBranch (t : ContextTree) (idA idB : String) : Bool :=
  let ancestryA := (t.getAncestry idA).map (fun n => n.id)
  let ancestryB := (t.getAncestry idB).map (fun n => n.id)
  ancestryA.contains idB || ancestryB.contains idA

/-- `ContextTree::add_child` (tree.rs lines 283-304). The mutation is
modelled by returning the updated tree alongside the `Result`. -/
def addChild (t : ContextTree) (parentId : String) (child : ContextNode) :
    ContextTree × Except ContextError String :=
  match t.nodes.find? parentId with
  | none =>
      (t, Except.error (ContextError.invalidFormat ("Parent node not found: " ++ parentId)))
  | some parent =>
      let child := { child with parent_id := some parentId, depth := parent.depth + 1 }
      let childId := child.id
      let t := t.insert child
      let t := match t.nodes.find? parentId with
        | some p => { t with nodes := t.nodes.insert parentId { p with children := p.children ++ [childId] } }
        | none => t
      (t, Except.ok childId)

/-- The technology index built at the start of `ContextTree::build_cross_links`
(tree.rs lines 311-326): normalized technology-entity name to the list of ids
of nodes carrying it (one entry per matching entity occurrence). -/
def buildTechIndex (t : ContextTree) : AMap (List String) :=
  t.nodes.keys.foldl
    (fun idx id =>
      match t.nodes.find? id with
      | some node =>
          node.entities.foldl
            (fun idx e =>
              if e.entity_type = EntityType.Technology then
                idx.insert e.normalized_name ((AMap.find? idx e.normalized_name).getD [] ++ [id])
              else idx)
            idx
      | none => idx)
    []

/-- Ordered pairs `(ids[i], ids[j])` with `i < j`, in the order of the two
nested loops of `build_cross_links`. -/
def allPairs {β : Type} : List β → List (β × β)
  | [] => []
  | x :: xs => xs.map (fun y => (x, y)) ++ allPairs xs

/-- The body of the pair loop of `build_cross_links` (tree.rs lines 333-354):
skip same-branch pairs, then add each direction of the `SameTechnology` link
unless some link to that node already exists. -/
def linkPair (t : ContextTree) (idA idB : String) : ContextTree :=
  if t.areInSameBranch idA idB then t
  else
    let linkA : RelatedNode :=
      { node_id := idB, relationship := CrossLinkType.SameTechnology, strength := 7/10, reason := none }
    let linkB : RelatedNode :=
      { node_id := idA, relationship := CrossLinkType.SameTechnology, strength := 7/10, reason := none }
    let t := match t.nodes.find? idA with
      | some nodeA =>
          if nodeA.related_nodes.any (fun r => r.node_id == idB) then t
          else { t with nodes := t.nodes.insert idA { nodeA with related_nodes := nodeA.related_nodes ++ [linkA] } }
      | none => t
    match t.nodes.find? idB with
    | some nodeB =>
        if nodeB.related_nodes.any (fun r => r.node_id == idA) then t
        else { t with nodes := t.nodes.insert idB { nodeB with related_nodes := nodeB.related_nodes ++ [linkB] } }
    | none => t

/-- `ContextTree::build_cross_links` (tree.rs lines 310-361). -/
def buildCrossLinks (t : ContextTree) : ContextTree :=
  let techIndex := t.buildTechIndex
  techIndex.foldl
    (fun t entry =>
      if 1 < entry.2.length then
        (allPairs entry.2).foldl (fun t p => t.linkPair p.1 p.2) t
      else t)
    t

end ContextTree

end Codex

namespace Codex

/-! ## Persistence (`tree_storage.rs`)

The primary file `tree.json` holds a JSON encoding of `TreeData`. The JSON
text layer is modelled at the `TreeData` level: `serde_json` round-trips the
`TreeData`/`ContextNode` structures losslessly (`Option` fields are skipped
when `None` and the sequence fields default to empty, which recovers exactly
the serialized value), so serialize-then-deserialize is the identity. -/

/-- `TreeData` (tree_storage.rs lines 18-31). -/
structure TreeData where
  version : Nat
  root_id : String
  nodes : List ContextNode
  domain_index : AMap String
deriving DecidableEq

/-- `TreeData::CURRENT_VERSION`. -/
def TreeData.currentVersion : Nat := 1

/-- `TreeData::from_tree` (tree_storage.rs lines 36-50).
`tree.root()` panics when the root id is dangling; the model returns `none`
exactly in that case. -/
def TreeData.fromTree (t : ContextTree) : Option TreeData :=
  match t.rootOpt with
  | none => none
  | some root =>
      some
        { version := TreeData.currentVersion
          root_id := root.id
          nodes := t.nodes.values
          domain_index :=
            t.listDomains.foldr
              (fun domain acc =>
                match t.getDomain domain with
                | some node => (domain, node.id) :: acc
                | none => acc)
              [] }

/-- `TreeData::into_tree` (tree_storage.rs lines 52-88). `ContextTree::new()`
generates a fresh uuid root, passed in as `freshRootId`. Note the source
never updates the private `root_id` field of the reconstructed tree: it stays
the id of the default root, which is removed again when it differs from the
stored root id. The `Result` is always `Ok` (the final safety-check branch,
which would also return `Ok`, is unreachable). -/
def TreeData.intoTree (freshRootId : String) (d : TreeData) : ContextTree :=
  if d.nodes.isEmpty then ContextTree.new freshRootId
  else if !(d.nodes.any (fun n => n.id == d.root_id)) then ContextTree.new freshRootId
  else
    let tree := ContextTree.new freshRootId
    let defaultRootId := freshRootId
    let tree := d.nodes.foldl (fun tree node => tree.insert node) tree
    let tree :=
      if defaultRootId ≠ d.root_id then (tree.remove defaultRootId).1 else tree
    if (tree.get d.root_id).isNone then ContextTree.new freshRootId
    else tree

/-- `TreeStore::load` (tree_storage.rs lines 175-211), modelled over the
parsed on-disk state: `none` stands for a missing `tree.json`, `some d` for a
file that deserializes to `d`. The version check only logs. -/
def TreeStore.loadModel (stored : Option TreeData) (freshRootId : String) :
    Except ContextError ContextTree :=
  match stored with
  | none => Except.ok (ContextTree.new freshRootId)
  | some d => Except.ok (d.intoTree freshRootId)

/-! ### Filesystem-operation model of `TreeStore::save`

`save` is modelled as the sequence of filesystem calls it issues, together
with a small-step semantics in which a run may stop after any complete
operation or in the middle of a `write` (leaving a prefix of the content).
File paths are relative to the store's base directory. -/

/-- One filesystem call issued by `TreeStore`. -/
inductive FsOp
  | createDirAll (path : String)
  | copy (src dst : String)
  | write (path : String) (content : String)
  | rename (src dst : String)
deriving DecidableEq

/-- Whether an operation is a rename. -/
def FsOp.isRenameOp : FsOp → Bool
  | FsOp.rename _ _ => true
  | _ => false

/-- Whether an operation touches the given path. -/
def FsOp.touches (op : FsOp) (p : String) : Bool :=
  match op with
  | FsOp.createDirAll q => q == p
  | FsOp.copy src dst => src == p || dst == p
  | FsOp.write q _ => q == p
  | FsOp.rename src dst => src == p || dst == p

/-- A filesystem: file path to content. -/
abbrev Fs : Type := AMap String

/-- Effect of one completed filesystem call. -/
def FsOp.apply (op : FsOp) (fs : Fs) : Fs :=
  match op with
  | FsOp.createDirAll _ => fs
  | FsOp.copy src dst =>
      match fs.find? src with
      | some c => fs.insert dst c
      | none => fs
  | FsOp.write p c => fs.insert p c
  | FsOp.rename src dst =>
      match fs.find? src with
      | some c => (fs.erase src).insert dst c
      | none => fs

/-- The calls of `TreeStore::save` (tree_storage.rs lines 145-172): ensure
the base directory, copy an existing `tree.json` to `tree.json.bak`, then
write the serialized tree directly to `tree.json`. `json` is the serialized
tree text (the call sequence does not depend on its value). There is no
temporary file and no rename. -/
def TreeStore.saveOps (fs : Fs) (dirExists : Bool) (json : String) : List FsOp :=
  (if dirExists then [] else [FsOp.createDirAll ""]) ++
    (if (fs.find? "tree.json").isSome then [FsOp.copy "tree.json" "tree.json.bak"] else []) ++
    [FsOp.write "tree.json" json]

/-- State after completing the first `k` operations. -/
def runPrefix (ops : List FsOp) (k : Nat) (fs : Fs) : Fs :=
  (ops.take k).foldl (fun fs op => op.apply fs) fs

/-- State of a run interrupted inside operation `k` (0-based) after `j`
characters of a `write` have reached the disk: the first `k` operations
completed, and if operation `k` is a write it left a prefix of its content. -/
def runInterrupted (ops : List FsOp) (k j : Nat) (fs : Fs) : Fs :=
  let fs := runPrefix ops k fs
  match ops.get? k with
  | some (FsOp.write p c) => fs.insert p (String.mk (c.data.take j))
  | _ => fs

end Codex

namespace Codex

/-! ## Claims C1 and C2: save and load -/

theorem runPrefix_succ_cons (op : FsOp) (ops : List FsOp) (k : Nat) (fs : Fs) :
    runPrefix (op :: ops) (k + 1) fs = runPrefix ops k (op.apply fs) := by
  simp [runPrefix, List.take_succ_cons]

theorem runPrefix_nil (k : Nat) (fs : Fs) : runPrefix [] k fs = fs := by
  simp [runPrefix]

theorem runInterrupted_succ_cons (op : FsOp) (ops : List FsOp) (k j : Nat) (fs : Fs) :
    runInterrupted (op :: ops) (k + 1) j fs = runInterrupted ops k j (op.apply fs) := by
  simp [runInterrupted, runPrefix_succ_cons, List.get?_cons_succ]

theorem runInterrupted_nil (k j : Nat) (fs : Fs) : runInterrupted [] k j fs = fs := by
  simp [runInterrupted, runPrefix_nil]

/-- C1, counterexample. The claim states that `TreeStore::save` writes the
serialized tree to `tree.json.tmp` and then renames it onto `tree.json`, so
that `tree.json` always holds a complete tree. At the concrete store state
holding an old tree `"OLD"` and serialized new tree `"NEWJSON"`, the call
sequence of `save` contains no operation on `tree.json.tmp` and no rename at
all, and a save interrupted inside the write leaves `tree.json` holding
`"NEW"` — neither the old nor the new complete serialized tree. -/
theorem c1_counterexample :
    ((TreeStore.saveOps [("tree.json", "OLD")] true "NEWJSON").all
        (fun op => !(op.touches "tree.json.tmp")) = true) ∧
    ((TreeStore.saveOps [("tree.json", "OLD")] true "NEWJSON").all
        (fun op => !op.isRenameOp) = true) ∧
    (runInterrupted (TreeStore.saveOps [("tree.json", "OLD")] true "NEWJSON") 1 3
        [("tree.json", "OLD")]).find? "tree.json" = some "NEW" ∧
    ("NEW" ≠ "OLD" ∧ "NEW" ≠ "NEWJSON") := by
  refine ⟨by decide, by decide, ?_, by decide, by decide⟩
  decide

/-- C1, amended: `save` copies an existing `tree.json` to `tree.json.bak` and
then writes the serialized tree directly to `tree.json` in place — no
temporary file and no rename. A completed save leaves the new serialization
in `tree.json` and the old one in `tree.json.bak`; an interruption after the
backup step (operation index `≥ 1 + (dir-creation step)`) may leave
`tree.json` partial, but `tree.json.bak` still holds the old complete tree. -/
theorem c1_amended_save (fs0 : Fs) (dirExists : Bool) (json old : String)
    (h : fs0.find? "tree.json" = some old) :
    ((TreeStore.saveOps fs0 dirExists json).all
        (fun op => !(op.touches "tree.json.tmp") && !op.isRenameOp) = true) ∧
    (runPrefix (TreeStore.saveOps fs0 dirExists json)
        (TreeStore.saveOps fs0 dirExists json).length fs0).find? "tree.json" = some json ∧
    (runPrefix (TreeStore.saveOps fs0 dirExists json)
        (TreeStore.saveOps fs0 dirExists json).length fs0).find? "tree.json.bak" = some old ∧
    (∀ k j, (if dirExists then 1 else 2) ≤ k →
      (runInterrupted (TreeStore.saveOps fs0 dirExists json) k j fs0).find? "tree.json.bak"
        = some old) := by
  have hops : TreeStore.saveOps fs0 dirExists json =
      (if dirExists then [] else [FsOp.createDirAll ""]) ++
        [FsOp.copy "tree.json" "tree.json.bak", FsOp.write "tree.json" json] := by
    unfold TreeStore.saveOps
    rw [h]
    simp
  have hcopy : FsOp.apply (FsOp.copy "tree.json" "tree.json.bak") fs0 =
      fs0.insert "tree.json.bak" old := by
    simp [FsOp.apply, h]
  have hbak : (fs0.insert "tree.json.bak" old).find? "tree.json.bak" = some old :=
    AMap.find?_insert_self fs0 "tree.json.bak" old
  have hjson1 : (fs0.insert "tree.json.bak" old).find? "tree.json" = some old := by
    rw [AMap.find?_insert_ne fs0 "tree.json.bak" "tree.json" old (by decide)]
    exact h
  have hw : ∀ fs' : Fs, FsOp.apply (FsOp.write "tree.json" json) fs' =
      fs'.insert "tree.json" json := fun _ => rfl
  have hfinal1 : ((fs0.insert "tree.json.bak" old).insert "tree.json" json).find? "tree.json"
      = some json := AMap.find?_insert_self _ "tree.json" json
  have hfinal2 : ((fs0.insert "tree.json.bak" old).insert "tree.json" json).find? "tree.json.bak"
      = some old := by
    rw [AMap.find?_insert_ne _ "tree.json" "tree.json.bak" json (by decide)]
    exact hbak
  cases dirExists with
  | true =>
      simp only [if_pos rfl] at hops
      rw [hops]
      simp only [List.nil_append, if_true]
      refine ⟨?_, ?_, ?_, ?_⟩
      · simp [List.all_cons, FsOp.touches, FsOp.isRenameOp]
      · show (runPrefix _ 2 fs0).find? "tree.json" = some json
        rw [runPrefix_succ_cons, runPrefix_succ_cons, runPrefix_nil, hcopy, hw]
        exact hfinal1
      · show (runPrefix _ 2 fs0).find? "tree.json.bak" = some old
        rw [runPrefix_succ_cons, runPrefix_succ_cons, runPrefix_nil, hcopy, hw]
        exact hfinal2
      · intro k j hk
        match k, hk with
        | 1, _ =>
            rw [runInterrupted_succ_cons, hcopy]
            show ((fs0.insert "tree.json.bak" old).insert "tree.json"
                (String.mk (json.data.take j))).find? "tree.json.bak" = some old
            rw [AMap.find?_insert_ne _ "tree.json" "tree.json.bak" _ (by decide)]
            exact hbak
        | (k' + 2), _ =>
            rw [runInterrupted_succ_cons, runInterrupted_succ_cons, runInterrupted_nil,
              hcopy, hw]
            exact hfinal2
  | false =>
      simp only [Bool.false_eq_true, if_false] at hops
      rw [hops]
      simp only [List.cons_append, List.nil_append]
      have hdir : FsOp.apply (FsOp.createDirAll "") fs0 = fs0 := rfl
      refine ⟨?_, ?_, ?_, ?_⟩
      · simp [List.all_cons, FsOp.touches, FsOp.isRenameOp]
      · show (runPrefix _ 3 fs0).find? "tree.json" = some json
        rw [runPrefix_succ_cons, hdir, runPrefix_succ_cons, runPrefix_succ_cons,
          runPrefix_nil, hcopy, hw]
        exact hfinal1
      · show (runPrefix _ 3 fs0).find? "tree.json.bak" = some old
        rw [runPrefix_succ_cons, hdir, runPrefix_succ_cons, runPrefix_succ_cons,
          runPrefix_nil, hcopy, hw]
        exact hfinal2
      · intro k j hk
        match k, hk with
        | 2, _ =>
            rw [runInterrupted_succ_cons, hdir, runInterrupted_succ_cons, hcopy]
            show ((fs0.insert "tree.json.bak" old).insert "tree.json"
                (String.mk (json.data.take j))).find? "tree.json.bak" = some old
            rw [AMap.find?_insert_ne _ "tree.json" "tree.json.bak" _ (by decide)]
            exact hbak
        | (k' + 3), _ =>
            rw [runInterrupted_succ_cons, hdir, runInterrupted_succ_cons,
              runInterrupted_succ_cons, runInterrupted_nil, hcopy, hw]
            exact hfinal2

/-- Witness for `c1_amended_save` at a concrete store state. -/
theorem c1_amended_save_witness :
    (runPrefix (TreeStore.saveOps [("tree.json", "OLD")] true "NEW")
        (TreeStore.saveOps [("tree.json", "OLD")] true "NEW").length
        [("tree.json", "OLD")]).find? "tree.json" = some "NEW" ∧
    (runPrefix (TreeStore.saveOps [("tree.json", "OLD")] true "NEW")
        (TreeStore.saveOps [("tree.json", "OLD")] true "NEW").length
        [("tree.json", "OLD")]).find? "tree.json.bak" = some "OLD" :=
  ⟨(c1_amended_save [("tree.json", "OLD")] true "NEW" "OLD" (by decide)).2.1,
   (c1_amended_save [("tree.json", "OLD")] true "NEW" "OLD" (by decide)).2.2.1⟩

/-- C2: `TreeStore::load` of a saved non-empty tree returns `Ok`, but the
tree it returns has a dangling root: `TreeData::into_tree` never updates the
private `root_id` field, which keeps the id of the freshly generated default
root, and that node is removed again because its id differs from the stored
root id. At the concrete on-disk state `{version 1, root_id "r", nodes
[root node "r"]}` (with fresh default-root uuid `"fresh"`), the loaded tree
has `has_valid_root() = false` and `root()` (hence `save()` and
`export_structure()`) panics, although the stored root node `"r"` is present
in the node map — contradicting the claim that a loaded tree always has a
valid root. -/
theorem c2_load_dangling_root :
    (TreeStore.loadModel
        (some { version := 1, root_id := "r",
                nodes := [ContextNode.rootNode "r"], domain_index := [] }) "fresh")
      = Except.ok (TreeData.intoTree "fresh"
          { version := 1, root_id := "r",
            nodes := [ContextNode.rootNode "r"], domain_index := [] }) ∧
    (TreeData.intoTree "fresh"
        { version := 1, root_id := "r",
          nodes := [ContextNode.rootNode "r"], domain_index := [] }).hasValidRoot = false ∧
    (TreeData.intoTree "fresh"
        { version := 1, root_id := "r",
          nodes := [ContextNode.rootNode "r"], domain_index := [] }).rootOpt = none ∧
    (TreeData.intoTree "fresh"
        { version := 1, root_id := "r",
          nodes := [ContextNode.rootNode "r"], domain_index := [] }).get "r"
      = some (ContextNode.rootNode "r") := by
  refine ⟨rfl, by decide, by decide, by decide⟩

end Codex

namespace Codex

/-! ## Claim C5: `add_child` -/

/-- C5, counterexample. The claim states that `add_child` with an absent
parent fails with the `ParentNotFound` error. `ContextError` has no
`ParentNotFound` variant at all; at the concrete input (a fresh tree and the
parent id `"missing"`), `add_child` fails with
`InvalidFormat("Parent node not found: missing")`, which is not the
`NotFound` variant. -/
theorem c5_counterexample :
    ((ContextTree.new "root").addChild "missing"
        (ContextNode.new "c1" NodeType.Project "proj")).2
      = Except.error (ContextError.invalidFormat "Parent node not found: missing") ∧
    (ContextError.invalidFormat "Parent node not found: missing").isNotFoundVariant = false := by
  exact ⟨rfl, rfl⟩

/-- C5, amended: `add_child(parent_id, child)` sets `child.parent_id` to
`parent_id`, sets `child.depth` to `parent.depth + 1`, inserts the child and
appends its id to the parent's children; when no node with `parent_id`
exists it fails with the `InvalidFormat` error carrying the message
`"Parent node not found: <parent_id>"` (there is no `ParentNotFound`
variant) and leaves the tree unchanged. -/
theorem c5_add_child (t : ContextTree) (parentId : String) (child : ContextNode)
    (hne : child.id ≠ parentId) :
    (t.nodes.find? parentId = none →
      t.addChild parentId child =
        (t, Except.error (ContextError.invalidFormat ("Parent node not found: " ++ parentId)))) ∧
    (∀ parent, t.nodes.find? parentId = some parent →
      (t.addChild parentId child).2 = Except.ok child.id ∧
      (t.addChild parentId child).1.nodes.find? child.id =
        some { child with parent_id := some parentId, depth := parent.depth + 1 } ∧
      (t.addChild parentId child).1.nodes.find? parentId =
        some { parent with children := parent.children ++ [child.id] }) := by
  constructor
  · intro h
    unfold ContextTree.addChild
    rw [h]
  · intro parent h
    have hchild :
        ({ child with parent_id := some parentId, depth := parent.depth + 1 } : ContextNode).id
          = child.id := rfl
    have hins : (t.insert { child with parent_id := some parentId, depth := parent.depth + 1 }).nodes
        = t.nodes.insert child.id { child with parent_id := some parentId, depth := parent.depth + 1 } := by
      simp [ContextTree.insert]
    have hfind1 : (t.insert { child with parent_id := some parentId, depth := parent.depth + 1 }).nodes.find? parentId
        = some parent := by
      rw [hins, AMap.find?_insert_ne _ _ _ _ (fun hq => hne hq.symm)]
      exact h
    unfold ContextTree.addChild
    rw [h]
    simp only [hchild, hfind1]
    refine ⟨by trivial, ?_, ?_⟩
    · show (AMap.insert _ parentId _).find? child.id = _
      rw [AMap.find?_insert_ne _ _ _ _ hne, hins, AMap.find?_insert_self]
    · show (AMap.insert _ parentId _).find? parentId = _
      rw [AMap.find?_insert_self]

/-- Witness for `c5_add_child`: both the error branch (absent parent) and the
success branch (present parent) at concrete inputs. -/
theorem c5_add_child_witness :
    ((ContextTree.new "root").addChild "absent" (ContextNode.new "c1" NodeType.Project "proj")
      = (ContextTree.new "root",
          Except.error (ContextError.invalidFormat "Parent node not found: absent"))) ∧
    (((ContextTree.new "root").addChild "root" (ContextNode.new "c1" NodeType.Project "proj")).2
      = Except.ok "c1") := by
  constructor
  · exact (c5_add_child (ContextTree.new "root") "absent"
      (ContextNode.new "c1" NodeType.Project "proj") (by decide)).1 (by decide)
  · exact ((c5_add_child (ContextTree.new "root") "root"
      (ContextNode.new "c1" NodeType.Project "proj") (by decide)).2
      (ContextNode.rootNode "root") (by decide)).1

end Codex

namespace Codex

/-! ## Claim C10: `remove` -/

/-- A Document node with id "a" whose path is "/p". -/
def c10NodeA : ContextNode :=
  { ContextNode.new "a" NodeType.Document "docA" with path := some "/p" }

/-- A second Document node ("b") sharing the path "/p". -/
def c10NodeB : ContextNode :=
  { ContextNode.new "b" NodeType.Document "docB" with path := some "/p" }

/-- Tree holding both path-aliased nodes (built with public `insert`). -/
def c10Tree : ContextTree :=
  ((ContextTree.new "root").insert c10NodeA).insert c10NodeB

/-- C10, counterexample. The claim states that `remove(id)` touches only the
removed node's state, leaving every other index entry unchanged. In
`c10Tree`, the path index maps `"/p"` to the live node `"b"`; removing `"a"`
(which also has path `"/p"`) deletes the `"/p"` entry wholesale, destroying
the index entry of the untouched node `"b"`. -/
theorem c10_counterexample :
    c10Tree.path_index.find? "/p" = some "b" ∧
    ((c10Tree.remove "a").1.nodes.find? "b") = some c10NodeB ∧
    ((c10Tree.remove "a").1.path_index.find? "/p") = none := by
  refine ⟨rfl, rfl, rfl⟩

/-- C10, amended: `remove(id)` deletes the node `id` from the node map,
filters `id` out of its parent's children, removes the `path_index` entry
stored under the removed node's path key and (for a Domain) the
`domain_index` entry under its lower-cased name key — where the removed key
may alias an entry belonging to a different node that shares the same path
or domain name — and leaves every other node, children list and index key
unchanged; when no node with `id` exists it returns `None` and the tree,
including all indices, is unchanged. -/
theorem c10_remove_frame (t : ContextTree) (id : String)
    (hnd : (AMap.keys t.nodes).Nodup)
    (hndp : (AMap.keys t.path_index).Nodup)
    (hndd : (AMap.keys t.domain_index).Nodup) :
    ((t.remove id).2 = t.nodes.find? id) ∧
    (t.nodes.find? id = none → t.remove id = (t, none)) ∧
    (∀ n, t.nodes.find? id = some n →
      ((t.remove id).1.nodes.find? id = none) ∧
      (∀ k, k ≠ id →
        (t.remove id).1.nodes.find? k =
          (t.nodes.find? k).map (fun m =>
            if n.parent_id = some k then
              { m with children := m.children.filter (fun c => c ≠ id) }
            else m)) ∧
      (∀ p, n.path = some p → (t.remove id).1.path_index.find? p = none) ∧
      (∀ q, (n.path = none ∨ ∃ p, n.path = some p ∧ q ≠ p) →
        (t.remove id).1.path_index.find? q = t.path_index.find? q) ∧
      (n.node_type = NodeType.Domain →
        (t.remove id).1.domain_index.find? (strLower n.name) = none) ∧
      (∀ q, (n.node_type ≠ NodeType.Domain ∨ q ≠ strLower n.name) →
        (t.remove id).1.domain_index.find? q = t.domain_index.find? q) ∧
      ((t.remove id).1.root_id = t.root_id)) := by
  refine ⟨?_, ?_, ?_⟩
  · cases h : t.nodes.find? id with
    | none => simp [ContextTree.remove, h]
    | some n => simp [ContextTree.remove, h]
  · intro h
    simp [ContextTree.remove, h]
  · intro n h
    have heraseSelf : (t.nodes.erase id).find? id = none :=
      AMap.find?_erase_self t.nodes id hnd
    have hpath :
        (t.remove id).1.path_index =
          (match n.path with
            | some p => t.path_index.erase p
            | none => t.path_index) := by
      simp [ContextTree.remove, h]
    have hdom :
        (t.remove id).1.domain_index =
          (if n.node_type = NodeType.Domain then
            t.domain_index.erase (strLower n.name)
          else t.domain_index) := by
      simp [ContextTree.remove, h]
    have hroot : (t.remove id).1.root_id = t.root_id := by
      simp [ContextTree.remove, h]
    refine ⟨?_, ?_, ?_, ?_, ?_, ?_, hroot⟩
    · -- the removed node is gone
      cases hp : n.parent_id with
      | none =>
          have hnodes : (t.remove id).1.nodes = t.nodes.erase id := by
            simp [ContextTree.remove, h, hp]
          rw [hnodes]
          exact heraseSelf
      | some pid =>
          cases hq : (t.nodes.erase id).find? pid with
          | none =>
              have hnodes : (t.remove id).1.nodes = t.nodes.erase id := by
                simp [ContextTree.remove, h, hp, hq]
              rw [hnodes]
              exact heraseSelf
          | some parent =>
              have hnodes : (t.remove id).1.nodes =
                  (t.nodes.erase id).insert pid
                    { parent with children := parent.children.filter (fun c => c ≠ id) } := by
                simp [ContextTree.remove, h, hp, hq]
              have hpid : pid ≠ id := by
                intro hcontra
                rw [hcontra, heraseSelf] at hq
                exact Option.noConfusion hq
              rw [hnodes, AMap.find?_insert_ne _ _ _ _ (fun hc => hpid hc.symm)]
              exact heraseSelf
    · -- every other node: unchanged, except the parent loses the child id
      intro k hk
      have herasek : (t.nodes.erase id).find? k = t.nodes.find? k :=
        AMap.find?_erase_ne t.nodes id k hk
      cases hp : n.parent_id with
      | none =>
          have hnodes : (t.remove id).1.nodes = t.nodes.erase id := by
            simp [ContextTree.remove, h, hp]
          rw [hnodes, herasek]
          cases t.nodes.find? k <;> simp
      | some pid =>
          cases hq : (t.nodes.erase id).find? pid with
          | none =>
              have hnodes : (t.remove id).1.nodes = t.nodes.erase id := by
                simp [ContextTree.remove, h, hp, hq]
              rw [hnodes, herasek]
              by_cases hkp : pid = k
              · subst hkp
                rw [herasek] at hq
                rw [hq]
                rfl
              · cases t.nodes.find? k <;>
                  simp [Option.some.injEq, fun hc : pid = k => hkp hc]
          | some parent =>
              have hnodes : (t.remove id).1.nodes =
                  (t.nodes.erase id).insert pid
                    { parent with children := parent.children.filter (fun c => c ≠ id) } := by
                simp [ContextTree.remove, h, hp, hq]
              rw [hnodes]
              by_cases hkp : pid = k
              · subst hkp
                rw [AMap.find?_insert_self]
                rw [herasek] at hq
                rw [hq]
                simp
              · rw [AMap.find?_insert_ne _ _ _ _ (fun hc : k = pid => hkp hc.symm), herasek]
                cases t.nodes.find? k <;>
                  simp [Option.some.injEq, fun hc : pid = k => hkp hc]
    · -- the path entry under the removed node's path key is gone
      intro p hpth
      rw [hpath, hpth]
      exact AMap.find?_erase_self t.path_index p hndp
    · -- all other path keys unchanged
      intro q hq
      rw [hpath]
      rcases hq with hq | ⟨p, hp, hqp⟩
      · rw [hq]
      · rw [hp]
        exact AMap.find?_erase_ne t.path_index p q hqp
    · -- the domain entry under the removed Domain's name key is gone
      intro hdm
      rw [hdom, if_pos hdm]
      exact AMap.find?_erase_self t.domain_index (strLower n.name) hndd
    · -- all other domain keys unchanged
      intro q hq
      rw [hdom]
      rcases hq with hq | hq
      · rw [if_neg hq]
      · by_cases hdm : n.node_type = NodeType.Domain
        · rw [if_pos hdm]
          exact AMap.find?_erase_ne t.domain_index (strLower n.name) q hq
        · rw [if_neg hdm]

/-- Witness for `c10_remove_frame`: removing the only Document from a
two-node tree at concrete inputs. -/
theorem c10_remove_frame_witness :
    (((ContextTree.new "root").insert c10NodeA).remove "a").2 = some c10NodeA ∧
    ((((ContextTree.new "root").insert c10NodeA).remove "a").1.nodes.find? "a" = none) := by
  have h := c10_remove_frame ((ContextTree.new "root").insert c10NodeA) "a"
    (by decide) (by decide) (by decide)
  refine ⟨?_, ?_⟩
  · rw [h.1]
    rfl
  · exact (h.2.2 c10NodeA (by rfl)).1

end Codex

namespace Codex

/-! ## Claim C7: heuristic domain detection (`llm.rs`) -/

/-- Substring test: model of `str::contains(&str)`. -/
def listContainsSub (sub hay : List Char) : Bool :=
  (List.range (hay.length + 1)).any (fun i => sub.isPrefixOf (hay.drop i))

/-- `str::contains` on the string wrappers. -/
def strContains (hay sub : String) : Bool :=
  listContainsSub sub.data hay.data

/-- `LlmAnalyzer::detect_coding_subcategory` (llm.rs lines 532-559). -/
def detectCodingSubcategory (extensions : List String) (_summary : String) : Option String :=
  let rustCount := (extensions.filter (fun e => e == "rs")).length
  let pythonCount := (extensions.filter (fun e => e == "py")).length
  let jsCount := (extensions.filter (fun e => e == "js" || e == "ts")).length
  let goCount := (extensions.filter (fun e => e == "go")).length
  let maxCount := ((rustCount.max pythonCount).max jsCount).max goCount
  if maxCount = 0 then none
  else if rustCount = maxCount then some "rust-projects"
  else if pythonCount = maxCount then some "python-projects"
  else if jsCount = maxCount then some "javascript-projects"
  else if goCount = maxCount then some "go-projects"
  else none

/-- `LlmAnalyzer::detect_domain_heuristic_full` (llm.rs lines 481-529).
In the cooking branch the source computes
`let is_new = !existing_domains.contains(&"cooking".to_string())` but never
uses it: the returned value is built with `.as_new()`, which unconditionally
sets `is_new_domain = true`. The same holds for the final `other` branch
(`DomainDetection::new("other", 0.3).as_new()`). The model reproduces the
returned values. -/
def detectDomainHeuristicFull (folder_summary : String)
    (file_extensions existing_domains : List String) : DomainDetection :=
  let summaryLower := strLower folder_summary
  let codingExts : List String := ["rs", "py", "js", "ts", "go", "java", "cpp"]
  let hasCodeFiles := file_extensions.any (fun ext => codingExts.contains ext)
  if hasCodeFiles then
    { domain := "coding"
      subcategory := detectCodingSubcategory file_extensions summaryLower
      is_new_domain := !(existing_domains.contains "coding")
      confidence := 8/10 }
  else
    let cookingKeywords : List String := ["recipe", "ingredient", "cook", "bake"]
    if cookingKeywords.any (fun kw => strContains summaryLower kw) then
      { domain := "cooking", subcategory := some "recipes",
        is_new_domain := true, confidence := 7/10 }
    else
      let workKeywords : List String := ["meeting", "project", "deadline", "report"]
      if workKeywords.any (fun kw => strContains summaryLower kw) then
        { domain := "work", subcategory := none,
          is_new_domain := !(existing_domains.contains "work"), confidence := 6/10 }
      else
        { domain := "other", subcategory := none,
          is_new_domain := true, confidence := 3/10 }

/-- C7: the claim states `is_new_domain = true` iff the detected domain is
not in `existing_domains`, for all four outcomes. The cooking and other
branches violate it: with folder summary `"recipe"` and existing domains
`["cooking"]` the detection returns domain `"cooking"` with
`is_new_domain = true` although `"cooking"` is an existing domain (the
source computes the correct flag into an unused local and then calls
`.as_new()`); likewise the `other` branch with existing domain `"other"`. -/
theorem c7_is_new_domain_bug :
    (detectDomainHeuristicFull "recipe" [] ["cooking"]).domain = "cooking" ∧
    (["cooking"] : List String).contains "cooking" = true ∧
    (detectDomainHeuristicFull "recipe" [] ["cooking"]).is_new_domain = true ∧
    (detectDomainHeuristicFull "" [] ["other"]).domain = "other" ∧
    (detectDomainHeuristicFull "" [] ["other"]).is_new_domain = true := by
  refine ⟨rfl, rfl, rfl, rfl, rfl⟩

end Codex

namespace Codex

/-! ## Claim C9: `get_ancestry` termination -/

/-- Node "a" whose parent is "b". -/
def c9NodeA : ContextNode :=
  { ContextNode.new "a" NodeType.Category "catA" with parent_id := some "b" }

/-- Node "b" whose parent is "a": together they form a parent cycle. -/
def c9NodeB : ContextNode :=
  { ContextNode.new "b" NodeType.Category "catB" with parent_id := some "a" }

/-- A tree (built with the public `insert`) whose parent links contain a
two-node cycle reachable from "a". -/
def c9CycTree : ContextTree :=
  ((ContextTree.new "root").insert c9NodeA).insert c9NodeB

theorem c9_cycle_aux : ∀ fuel (acc : List ContextNode),
    ContextTree.getAncestryAux c9CycTree fuel (some "a") acc = none ∧
    ContextTree.getAncestryAux c9CycTree fuel (some "b") acc = none := by
  intro fuel
  induction fuel with
  | zero => intro acc; exact ⟨rfl, rfl⟩
  | succ f ih =>
      intro acc
      exact ⟨(ih (c9NodeA :: acc)).2, (ih (c9NodeB :: acc)).1⟩

/-- C9, counterexample. The claim states that `get_ancestry(id)` terminates
for every tree state, including parent links that form a cycle. On
`c9CycTree` (whose nodes "a" and "b" are each other's parent — a state
reachable through the public `insert`), the `while let` loop of
`get_ancestry("a")` runs forever: no fuel amount makes the loop finish. -/
theorem c9_counterexample :
    ¬ ∃ fuel, (ContextTree.getAncestryAux c9CycTree fuel (some "a") []).isSome = true := by
  rintro ⟨fuel, h⟩
  rw [(c9_cycle_aux fuel []).1] at h
  exact Bool.noConfusion h

/-- A rank decreasing along present parent links: its existence rules out
parent cycles reachable through the node map. -/
def WellRanked (t : ContextTree) (rank : String → Nat) : Prop :=
  ∀ k n, t.nodes.find? k = some n →
    ∀ p, n.parent_id = some p → (t.nodes.find? p).isSome = true → rank p < rank k

/-- The rank of every present node is below the node count. -/
def RankBounded (t : ContextTree) (rank : String → Nat) : Prop :=
  ∀ k, (t.nodes.find? k).isSome = true → rank k < t.nodeCount

/-- Node map bindings store the node under its own id (holds for every tree
built through the public constructors and mutators). -/
def IdConsistent (t : ContextTree) : Prop :=
  ∀ k n, t.nodes.find? k = some n → n.id = k

theorem ancestryAux_isSome (t : ContextTree) (rank : String → Nat)
    (hr : WellRanked t rank) :
    ∀ fuel id acc, rank id + 2 ≤ fuel →
      (ContextTree.getAncestryAux t fuel (some id) acc).isSome = true := by
  intro fuel
  induction fuel with
  | zero => intro id acc hle; omega
  | succ f ih =>
      intro id acc hle
      cases hfind : t.nodes.find? id with
      | none => simp [ContextTree.getAncestryAux, hfind]
      | some n =>
          have hstep : ContextTree.getAncestryAux t (f + 1) (some id) acc =
              ContextTree.getAncestryAux t f n.parent_id (n :: acc) := by
            simp only [ContextTree.getAncestryAux, hfind]
          rw [hstep]
          cases hpar : n.parent_id with
          | none => simp [ContextTree.getAncestryAux]
          | some p =>
              cases hfp : t.nodes.find? p with
              | none =>
                  obtain ⟨f', rfl⟩ : ∃ f', f = f' + 1 := ⟨f - 1, by omega⟩
                  simp [ContextTree.getAncestryAux, hfp]
              | some m =>
                  have hlt : rank p < rank id :=
                    hr id n hfind p hpar (by simp [hfp])
                  exact ih p (n :: acc) (by omega)

theorem list_getLast?_snoc {β : Type} (l : List β) (a : β) :
    (l ++ [a]).getLast? = some a := by
  induction l with
  | nil => rfl
  | cons x xs ih =>
      cases xs with
      | nil => rfl
      | cons y ys => simpa using ih

theorem ancestryAux_walk (t : ContextTree) (hid : IdConsistent t) :
    ∀ fuel id acc l, ContextTree.getAncestryAux t fuel (some id) acc = some l →
      ∃ w, l = w ++ acc ∧
        (∀ n, t.nodes.find? id = some n → w ≠ [] ∧ w.getLast? = some n) ∧
        (t.nodes.find? id = none → w = []) ∧
        List.Chain' (fun a b => b.parent_id = some a.id) w ∧
        (∀ hd, w.head? = some hd →
          hd.parent_id = none ∨ ∀ p, hd.parent_id = some p → t.nodes.find? p = none) := by
  intro fuel
  induction fuel with
  | zero =>
      intro id acc l h
      exact absurd h (by simp [ContextTree.getAncestryAux])
  | succ f ih =>
      intro id acc l h
      cases hfind : t.nodes.find? id with
      | none =>
          have hval : ContextTree.getAncestryAux t (f + 1) (some id) acc = some acc := by
            simp [ContextTree.getAncestryAux, hfind]
          rw [hval] at h
          refine ⟨[], by simpa using (Option.some.inj h).symm, ?_, fun _ => rfl, ?_, ?_⟩
          · intro n hn
            exact Option.noConfusion hn
          · exact List.chain'_nil
          · intro hd hhd
            exact absurd hhd (by simp)
      | some n =>
          have hstep : ContextTree.getAncestryAux t (f + 1) (some id) acc =
              ContextTree.getAncestryAux t f n.parent_id (n :: acc) := by
            simp only [ContextTree.getAncestryAux, hfind]
          rw [hstep] at h
          cases hpar : n.parent_id with
          | none =>
              rw [hpar] at h
              have hval : ContextTree.getAncestryAux t f none (n :: acc) = some (n :: acc) := by
                cases f <;> rfl
              rw [hval] at h
              refine ⟨[n], by simpa using (Option.some.inj h).symm, ?_, ?_, ?_, ?_⟩
              · intro n' hn'
                have hnn : n = n' := Option.some.inj hn'
                subst hnn
                exact ⟨by simp, rfl⟩
              · intro hnone
                exact Option.noConfusion hnone
              · exact List.chain'_singleton n
              · intro hd hhd
                left
                have hdn : n = hd := by simpa using hhd
                rw [← hdn, hpar]
          | some p =>
              rw [hpar] at h
              obtain ⟨w', hl, hw1, hw2, hchain, hhead⟩ := ih p (n :: acc) l h
              have hwnil : w' = [] → t.nodes.find? p = none := by
                intro hw
                cases hfp : t.nodes.find? p with
                | none => rfl
                | some m => exact absurd hw (hw1 m hfp).1
              refine ⟨w' ++ [n], ?_, ?_, ?_, ?_, ?_⟩
              · rw [hl, List.append_assoc]
                rfl
              · intro n' hn'
                have hnn : n = n' := Option.some.inj hn'
                subst hnn
                exact ⟨by simp, list_getLast?_snoc w' n⟩
              · intro hnone
                exact Option.noConfusion hnone
              · rcases List.eq_nil_or_concat w' with hw | ⟨w'', b, hcb⟩
                · rw [hw]
                  exact List.chain'_singleton n
                · rw [List.concat_eq_append] at hcb
                  subst hcb
                  rw [List.chain'_append]
                  refine ⟨hchain, List.chain'_singleton n, ?_⟩
                  intro x hx y hy
                  have hxb : x = b := by
                    rw [list_getLast?_snoc] at hx
                    have : b = x := by simpa using hx
                    exact this.symm
                  have hyn : y = n := by
                    have : n = y := by simpa using hy
                    exact this.symm
                  cases hfp : t.nodes.find? p with
                  | none =>
                      exact absurd (hw2 hfp) (by simp)
                  | some m =>
                      have hbm : b = m := by
                        have hlast := (hw1 m hfp).2
                        rw [list_getLast?_snoc] at hlast
                        exact Option.some.inj hlast
                      rw [hxb, hyn, hbm, hpar, hid p m hfp]
              · intro hd hhd
                rcases List.eq_nil_or_concat w' with hw | ⟨w'', b, hcb⟩
                · subst hw
                  have hdn : n = hd := by simpa using hhd
                  subst hdn
                  right
                  intro p' hp'
                  have hpp : p = p' := Option.some.inj (hpar.symm.trans hp')
                  rw [← hpp]
                  exact hwnil rfl
                · rw [List.concat_eq_append] at hcb
                  subst hcb
                  have hh : (w'' ++ [b]).head? = some hd := by
                    cases w'' with
                    | nil => simpa using hhd
                    | cons z zs => simpa using hhd
                  exact hhead hd hh

/-- C9, amended: `get_ancestry(id)` terminates whenever the parent walk
admits a rank function decreasing along present parent links (acyclicity) —
in particular it always terminates on a missing node, a missing parent, or a
root-ended chain — and the returned list is the path from the root (or the
highest reachable ancestor) down to `id`: it ends at the node of `id`, each
node's `parent_id` points at the node before it, and the first node's parent
is `None` or absent from the tree. On a reachable parent cycle the loop does
not terminate (see the counterexample). -/
theorem c9_ancestry_terminates (t : ContextTree) (rank : String → Nat)
    (hr : WellRanked t rank) (hb : RankBounded t rank) (hid : IdConsistent t)
    (id : String) :
    ((ContextTree.getAncestryAux t (t.nodeCount + 1) (some id) []).isSome = true) ∧
    (∀ l, ContextTree.getAncestryAux t (t.nodeCount + 1) (some id) [] = some l →
      t.getAncestry id = l ∧
      (∀ n, t.nodes.find? id = some n → l ≠ [] ∧ l.getLast? = some n) ∧
      (t.nodes.find? id = none → l = []) ∧
      List.Chain' (fun a b => b.parent_id = some a.id) l ∧
      (∀ hd, l.head? = some hd →
        hd.parent_id = none ∨ ∀ p, hd.parent_id = some p → t.nodes.find? p = none)) := by
  constructor
  · cases hfind : t.nodes.find? id with
    | none => simp [ContextTree.getAncestryAux, hfind]
    | some n =>
        have hlt : rank id < t.nodeCount := hb id (by simp [hfind])
        exact ancestryAux_isSome t rank hr (t.nodeCount + 1) id [] (by omega)
  · intro l h
    obtain ⟨w, hl, hw1, hw2, hchain, hhead⟩ :=
      ancestryAux_walk t hid (t.nodeCount + 1) id [] l h
    rw [List.append_nil] at hl
    subst hl
    exact ⟨by simp [ContextTree.getAncestry, h], hw1, hw2, hchain, hhead⟩

/-- A concrete acyclic tree for the C9 witness: root with one domain. -/
def c9WitTree : ContextTree :=
  ((ContextTree.new "root").ensureDomain "d" "coding").1

/-- The root node of `c9WitTree` after gaining the domain child. -/
def c9WitRoot : ContextNode :=
  { ContextNode.rootNode "root" with children := ["d"] }

/-- The domain node of `c9WitTree`. -/
def c9WitDom : ContextNode :=
  { ContextNode.domainNode "d" "coding" with parent_id := some "root" }

theorem c9_wit_nodes : c9WitTree.nodes = [("root", c9WitRoot), ("d", c9WitDom)] := rfl

/-- Depth-style rank for `c9WitTree`. -/
def c9WitRank (id : String) : Nat :=
  if id = "d" then 1 else 0

theorem c9_wit_wellRanked : WellRanked c9WitTree c9WitRank := by
  intro k n h p hp hps
  rw [c9_wit_nodes] at h
  rw [AMap.find?_cons] at h
  by_cases h1 : "root" = k
  · rw [if_pos h1] at h
    obtain rfl : c9WitRoot = n := Option.some.inj h
    have hnone : c9WitRoot.parent_id = none := rfl
    rw [hnone] at hp
    exact Option.noConfusion hp
  · rw [if_neg h1, AMap.find?_cons] at h
    by_cases h2 : "d" = k
    · rw [if_pos h2] at h
      obtain rfl : c9WitDom = n := Option.some.inj h
      have hsome : c9WitDom.parent_id = some "root" := rfl
      rw [hsome] at hp
      obtain rfl : "root" = p := Option.some.inj hp
      rw [← h2]
      decide
    · rw [if_neg h2] at h
      exact Option.noConfusion h

theorem c9_wit_rankBounded : RankBounded c9WitTree c9WitRank := by
  intro k h
  have hk := AMap.mem_keys_of_find?_isSome c9WitTree.nodes k (by rw [h])
  have hkeys : AMap.keys c9WitTree.nodes = ["root", "d"] := rfl
  rw [hkeys] at hk
  simp only [List.mem_cons, List.not_mem_nil, or_false] at hk
  rcases hk with hk | hk <;> rw [hk] <;> decide

theorem c9_wit_idConsistent : IdConsistent c9WitTree := by
  intro k n h
  rw [c9_wit_nodes, AMap.find?_cons] at h
  by_cases h1 : "root" = k
  · rw [if_pos h1] at h
    obtain rfl : c9WitRoot = n := Option.some.inj h
    rw [← h1]
    rfl
  · rw [if_neg h1, AMap.find?_cons] at h
    by_cases h2 : "d" = k
    · rw [if_pos h2] at h
      obtain rfl : c9WitDom = n := Option.some.inj h
      rw [← h2]
      rfl
    · rw [if_neg h2] at h
      exact Option.noConfusion h

/-- Witness for `c9_ancestry_terminates` on the concrete acyclic tree. -/
theorem c9_ancestry_terminates_witness :
    (ContextTree.getAncestryAux c9WitTree (c9WitTree.nodeCount + 1) (some "d") []).isSome
      = true :=
  (c9_ancestry_terminates c9WitTree c9WitRank c9_wit_wellRanked c9_wit_rankBounded
    c9_wit_idConsistent "d").1

end Codex

namespace Codex

/-! ## Claim C3: save/load round trip -/

namespace AMap

variable {α : Type}

theorem find?_append (m1 m2 : AMap α) (k : String) :
    find? (m1 ++ m2) k =
      (match find? m1 k with
        | some v => some v
        | none => find? m2 k) := by
  induction m1 with
  | nil => simp [find?]
  | cons hd tl ih =>
      obtain ⟨k', v'⟩ := hd
      by_cases h : k' = k
      · simp [find?, h]
      · simp [find?, h, ih]

theorem mem_of_find? (m : AMap α) (k : String) (v : α)
    (h : find? m k = some v) : (k, v) ∈ m := by
  induction m with
  | nil => exact Option.noConfusion h
  | cons hd tl ih =>
      obtain ⟨k', v'⟩ := hd
      rw [find?_cons] at h
      by_cases hk : k' = k
      · rw [if_pos hk] at h
        subst hk
        rw [Option.some.inj h]
        exact List.mem_cons_self _ _
      · rw [if_neg hk] at h
        exact List.mem_cons_of_mem _ (ih h)

theorem find?_isSome_of_mem (m : AMap α) (k : String) (v : α)
    (h : (k, v) ∈ m) : (find? m k).isSome = true := by
  induction m with
  | nil => cases h
  | cons hd tl ih =>
      obtain ⟨k', v'⟩ := hd
      rw [find?_cons]
      by_cases hk : k' = k
      · simp [hk]
      · rw [if_neg hk]
        rcases List.mem_cons.mp h with heq | hmem
        · exact absurd (congrArg Prod.fst heq).symm hk
        · exact ih hmem

end AMap

/-- With id-consistent bindings, re-pairing the values recovers the map. -/
theorem values_map_pair (m : AMap ContextNode)
    (hbind : ∀ p ∈ m, (p.2 : ContextNode).id = p.1) :
    (AMap.values m).map (fun n => (n.id, n)) = m := by
  induction m with
  | nil => rfl
  | cons hd tl ih =>
      obtain ⟨k, n⟩ := hd
      have hk : n.id = k := hbind (k, n) (List.mem_cons_self _ _)
      simp only [AMap.values, List.map_cons, List.map_map]
      rw [hk]
      have := ih (fun p hp => hbind p (List.mem_cons_of_mem _ hp))
      simp only [AMap.values, List.map_map] at this
      rw [this]

/-- With id-consistent bindings, the value ids are the keys. -/
theorem values_ids (m : AMap ContextNode)
    (hbind : ∀ p ∈ m, (p.2 : ContextNode).id = p.1) :
    (AMap.values m).map (fun n => n.id) = AMap.keys m := by
  induction m with
  | nil => rfl
  | cons hd tl ih =>
      obtain ⟨k, n⟩ := hd
      have hk : n.id = k := hbind (k, n) (List.mem_cons_self _ _)
      simp only [AMap.values, AMap.keys, List.map_cons, List.map_map] at *
      rw [hk]
      have := ih (fun p hp => hbind p (List.mem_cons_of_mem _ hp))
      rw [this]

/-- The node map produced by folding `ContextTree::insert` over fresh nodes:
each insert appends its binding. -/
theorem trInsertFold_nodes (vals : List ContextNode) :
    ∀ tr : ContextTree,
      (∀ n ∈ vals, tr.nodes.find? n.id = none) →
      (vals.map (fun n => n.id)).Nodup →
      (vals.foldl (fun tree node => tree.insert node) tr).nodes =
        tr.nodes ++ vals.map (fun n => (n.id, n)) := by
  induction vals with
  | nil => intro tr _ _; simp
  | cons n rest ih =>
      intro tr hdisj hvnd
      simp only [List.map_cons, List.nodup_cons] at hvnd
      have hstep : (tr.insert n).nodes = tr.nodes ++ [(n.id, n)] := by
        show AMap.insert tr.nodes n.id n = _
        exact AMap.insert_of_absent tr.nodes n.id n (hdisj n (List.mem_cons_self _ _))
      have hdisj' : ∀ m ∈ rest, (tr.insert n).nodes.find? m.id = none := by
        intro m hm
        rw [hstep, AMap.find?_append,
          hdisj m (List.mem_cons_of_mem _ hm)]
        have hne : n.id ≠ m.id := fun hc => hvnd.1 (hc ▸ List.mem_map_of_mem _ hm)
        simp [AMap.find?, hne]
      simp only [List.foldl_cons]
      rw [ih (tr.insert n) hdisj' hvnd.2, hstep, List.append_assoc]
      rfl

/-- Folding `insert` never changes `root_id`. -/
theorem trInsertFold_root (vals : List ContextNode) :
    ∀ tr : ContextTree,
      (vals.foldl (fun tree node => tree.insert node) tr).root_id = tr.root_id := by
  induction vals with
  | nil => intro tr; rfl
  | cons n rest ih => intro tr; simp only [List.foldl_cons]; rw [ih]; rfl

/-- The domain-index fold performed implicitly by the inserts. -/
def domIdxFold (vals : List ContextNode) (idx : AMap String) : AMap String :=
  vals.foldl
    (fun idx n =>
      if n.node_type = NodeType.Domain then AMap.insert idx (strLower n.name) n.id else idx)
    idx

/-- Folding `insert` builds exactly `domIdxFold` on the domain index. -/
theorem trInsertFold_domIdx (vals : List ContextNode) :
    ∀ tr : ContextTree,
      (vals.foldl (fun tree node => tree.insert node) tr).domain_index =
        domIdxFold vals tr.domain_index := by
  induction vals with
  | nil => intro tr; rfl
  | cons n rest ih =>
      intro tr
      simp only [List.foldl_cons, domIdxFold]
      rw [ih]
      rfl

theorem domIdxFold_preserve (vals : List ContextNode) (q : String) :
    ∀ idx : AMap String,
      (∀ n ∈ vals, ¬(n.node_type = NodeType.Domain ∧ strLower n.name = q)) →
      (domIdxFold vals idx).find? q = idx.find? q := by
  induction vals with
  | nil => intro idx _; rfl
  | cons n rest ih =>
      intro idx h
      simp only [domIdxFold, List.foldl_cons]
      by_cases hdm : n.node_type = NodeType.Domain
      · have hne : strLower n.name ≠ q := fun hc => h n (List.mem_cons_self _ _) ⟨hdm, hc⟩
        rw [if_pos hdm]
        have := ih (AMap.insert idx (strLower n.name) n.id)
          (fun m hm => h m (List.mem_cons_of_mem _ hm))
        simp only [domIdxFold] at this
        rw [this, AMap.find?_insert_ne _ _ _ _ (fun hc => hne hc.symm)]
      · rw [if_neg hdm]
        have := ih idx (fun m hm => h m (List.mem_cons_of_mem _ hm))
        simp only [domIdxFold] at this
        rw [this]

theorem domIdxFold_hit (vals : List ContextNode) (q k : String) :
    ∀ idx : AMap String,
      (vals.map (fun n => n.id)).Nodup →
      (∃ n, n ∈ vals ∧ n.id = k ∧ n.node_type = NodeType.Domain ∧ strLower n.name = q) →
      (∀ m, m ∈ vals → m.node_type = NodeType.Domain → strLower m.name = q → m.id = k) →
      (domIdxFold vals idx).find? q = some k := by
  induction vals with
  | nil =>
      intro idx _ hmem _
      obtain ⟨n, hn, -⟩ := hmem
      cases hn
  | cons n0 rest ih =>
      intro idx hvnd hmem huniq
      simp only [List.map_cons, List.nodup_cons] at hvnd
      by_cases hmatch : n0.node_type = NodeType.Domain ∧ strLower n0.name = q
      · have hk0 : n0.id = k := huniq n0 (List.mem_cons_self _ _) hmatch.1 hmatch.2
        simp only [domIdxFold, List.foldl_cons, if_pos hmatch.1]
        have hrest : ∀ m ∈ rest, ¬(m.node_type = NodeType.Domain ∧ strLower m.name = q) := by
          intro m hm hc
          have hmk : m.id = k := huniq m (List.mem_cons_of_mem _ hm) hc.1 hc.2
          exact hvnd.1 ((hk0.trans hmk.symm) ▸ List.mem_map_of_mem _ hm)
        have := domIdxFold_preserve rest q (AMap.insert idx (strLower n0.name) n0.id) hrest
        simp only [domIdxFold] at this ⊢
        rw [this, hmatch.2, hk0, AMap.find?_insert_self]
      · obtain ⟨n, hn, hnk, hnd', hnq⟩ := hmem
        have hnrest : n ∈ rest := by
          rcases List.mem_cons.mp hn with heq | hm
          · exact absurd ⟨heq ▸ hnd', heq ▸ hnq⟩ hmatch
          · exact hm
        simp only [domIdxFold, List.foldl_cons]
        exact ih _ hvnd.2 ⟨n, hnrest, hnk, hnd', hnq⟩
          (fun m hm => huniq m (List.mem_cons_of_mem _ hm))

/-- C3: on a well-formed tree (valid root, distinct ids, bindings stored
under their own id, domain index consistent with the Domain nodes) and a
fresh default-root uuid, the round trip through the on-disk `TreeData`
yields a tree with the same `node_count`, the same node map — hence
per-node fields equal to the original with children order and related-nodes
order preserved — and `get_domain` resolving the same names. -/
theorem c3_roundtrip (t : ContextTree) (fresh : String)
    (hroot : (t.nodes.find? t.root_id).isSome = true)
    (hnd : (AMap.keys t.nodes).Nodup)
    (hbind : ∀ p ∈ t.nodes, (p.2 : ContextNode).id = p.1)
    (hfresh : t.nodes.find? fresh = none)
    (hd1 : ∀ q ∈ t.domain_index, ∃ n, t.nodes.find? (q.2 : String) = some n ∧
        n.node_type = NodeType.Domain ∧ strLower n.name = q.1)
    (hd2 : ∀ p ∈ t.nodes, (p.2 : ContextNode).node_type = NodeType.Domain →
        t.domain_index.find? (strLower p.2.name) = some p.1) :
    ∃ d, TreeData.fromTree t = some d ∧
      (d.intoTree fresh).nodeCount = t.nodeCount ∧
      ((d.intoTree fresh).nodes = t.nodes) ∧
      (∀ id, (d.intoTree fresh).get id = t.get id) ∧
      (∀ name, (d.intoTree fresh).getDomain name = t.getDomain name) := by
  obtain ⟨rootN, hrootN⟩ := Option.isSome_iff_exists.mp hroot
  have hrid : rootN.id = t.root_id :=
    hbind (t.root_id, rootN) (AMap.mem_of_find? t.nodes t.root_id rootN hrootN)
  refine ⟨{ version := TreeData.currentVersion
            root_id := rootN.id
            nodes := AMap.values t.nodes
            domain_index :=
              t.listDomains.foldr
                (fun domain acc =>
                  match t.getDomain domain with
                  | some node => (domain, node.id) :: acc
                  | none => acc)
                [] }, ?_, ?_⟩
  · simp [TreeData.fromTree, ContextTree.rootOpt, hrootN]
  -- shared computations
  have hmemroot : (t.root_id, rootN) ∈ t.nodes :=
    AMap.mem_of_find? t.nodes t.root_id rootN hrootN
  have hrootv : rootN ∈ AMap.values t.nodes := by
    exact List.mem_map_of_mem Prod.snd hmemroot
  have hvals_ids : (AMap.values t.nodes).map (fun n => n.id) = AMap.keys t.nodes :=
    values_ids t.nodes hbind
  have hvnd : ((AMap.values t.nodes).map (fun n => n.id)).Nodup := by
    rw [hvals_ids]; exact hnd
  have hfresh_notin : ∀ n ∈ AMap.values t.nodes, fresh ≠ n.id := by
    intro n hn hc
    obtain ⟨p, hp, hps⟩ := List.mem_map.mp hn
    have hk : (p.2 : ContextNode).id = p.1 := hbind p hp
    have : (t.nodes.find? fresh).isSome = true := by
      have hpm : (fresh, n) ∈ t.nodes := by
        have : p = (fresh, n) := by
          obtain ⟨pk, pv⟩ := p
          simp only at hps hk
          rw [Prod.mk.injEq]
          constructor
          · rw [← hk, hps, ← hc]
          · exact hps
        rw [← this]; exact hp
      exact AMap.find?_isSome_of_mem t.nodes fresh n hpm
    rw [hfresh] at this
    exact Bool.noConfusion this
  have hdisj : ∀ n ∈ AMap.values t.nodes,
      (ContextTree.new fresh).nodes.find? n.id = none := by
    intro n hn
    show AMap.find? [(fresh, ContextNode.rootNode fresh)] n.id = none
    simp [AMap.find?, hfresh_notin n hn]
  -- the folded tree
  have hFnodes :
      ((AMap.values t.nodes).foldl (fun tree node => tree.insert node)
        (ContextTree.new fresh)).nodes =
        (fresh, ContextNode.rootNode fresh) :: t.nodes := by
    rw [trInsertFold_nodes (AMap.values t.nodes) (ContextTree.new fresh) hdisj hvnd,
      values_map_pair t.nodes hbind]
    rfl
  have hFroot :
      ((AMap.values t.nodes).foldl (fun tree node => tree.insert node)
        (ContextTree.new fresh)).root_id = fresh :=
    trInsertFold_root (AMap.values t.nodes) (ContextTree.new fresh)
  have hFdom :
      ((AMap.values t.nodes).foldl (fun tree node => tree.insert node)
        (ContextTree.new fresh)).domain_index = domIdxFold (AMap.values t.nodes) [] :=
    trInsertFold_domIdx (AMap.values t.nodes) (ContextTree.new fresh)
  set F := (AMap.values t.nodes).foldl (fun tree node => tree.insert node)
    (ContextTree.new fresh) with hF
  have hfindF : F.nodes.find? fresh = some (ContextNode.rootNode fresh) := by
    rw [hFnodes]
    simp [AMap.find?]
  -- removing the default root
  have hRnodes : ((F.remove fresh).1).nodes = t.nodes := by
    simp only [ContextTree.remove, hfindF]
    show (F.nodes.erase fresh) = t.nodes
    rw [hFnodes]
    simp [AMap.erase]
  have hRdom : ((F.remove fresh).1).domain_index = F.domain_index := by
    simp [ContextTree.remove, hfindF]
    intro h
    exact NodeType.noConfusion h
  have hRroot : ((F.remove fresh).1).root_id = F.root_id := by
    simp [ContextTree.remove, hfindF]
  -- the reconstruction takes the generic branch
  have hrootid_mem : t.root_id ∈ AMap.keys t.nodes := by
    exact AMap.mem_keys_of_find?_isSome t.nodes t.root_id hroot
  have hfrne : fresh ≠ rootN.id := by
    intro hc
    rw [hrid] at hc
    have : (t.nodes.find? fresh).isSome = true := by
      rw [hc]; exact hroot
    rw [hfresh] at this
    exact Bool.noConfusion this
  have hne_empty : (AMap.values t.nodes).isEmpty = false := by
    cases hv : AMap.values t.nodes with
    | nil => rw [hv] at hrootv; cases hrootv
    | cons a l => rfl
  have hany : (AMap.values t.nodes).any (fun n => n.id == rootN.id) = true := by
    rw [List.any_eq_true]
    exact ⟨rootN, hrootv, by simp⟩
  have hgetR : ((F.remove fresh).1).get rootN.id = some rootN := by
    show ((F.remove fresh).1).nodes.find? rootN.id = some rootN
    rw [hRnodes, hrid]
    exact hrootN
  have hinto :
      TreeData.intoTree fresh
        { version := TreeData.currentVersion
          root_id := rootN.id
          nodes := AMap.values t.nodes
          domain_index :=
            t.listDomains.foldr
              (fun domain acc =>
                match t.getDomain domain with
                | some node => (domain, node.id) :: acc
                | none => acc)
              [] } = (F.remove fresh).1 := by
    unfold TreeData.intoTree
    simp only [hne_empty, hany, Bool.not_true, Bool.false_eq_true, if_false]
    rw [if_pos hfrne]
    have : (((F.remove fresh).1).get rootN.id).isNone = false := by
      rw [hgetR]; rfl
    simp only [hF] at this ⊢
    rw [this]
    simp
  rw [hinto]
  -- domain index as seen through lookups
  have hdix : ∀ q, (domIdxFold (AMap.values t.nodes) []).find? q = t.domain_index.find? q := by
    intro q
    cases hcase : t.domain_index.find? q with
    | some id =>
        obtain ⟨n, hfn, hdm, hlq⟩ :=
          hd1 (q, id) (AMap.mem_of_find? t.domain_index q id hcase)
        have hmem : (id, n) ∈ t.nodes := AMap.mem_of_find? t.nodes id n hfn
        have hnid : n.id = id := hbind (id, n) hmem
        have huniq : ∀ m, m ∈ AMap.values t.nodes → m.node_type = NodeType.Domain →
            strLower m.name = q → m.id = id := by
          intro m hm hmd hml
          obtain ⟨p, hp, hps⟩ := List.mem_map.mp hm
          have hpk : (p.2 : ContextNode).id = p.1 := hbind p hp
          have := hd2 p hp (by rw [hps]; exact hmd)
          rw [show strLower p.2.name = q by rw [hps]; exact hml] at this
          rw [hcase] at this
          rw [← hps, hpk]
          exact (Option.some.inj this).symm
        exact domIdxFold_hit (AMap.values t.nodes) q id [] hvnd
          ⟨n, List.mem_map_of_mem Prod.snd hmem, hnid, hdm, hlq⟩ huniq
    | none =>
        have hno : ∀ n ∈ AMap.values t.nodes,
            ¬(n.node_type = NodeType.Domain ∧ strLower n.name = q) := by
          intro n hn hc
          obtain ⟨p, hp, hps⟩ := List.mem_map.mp hn
          have := hd2 p hp (by rw [hps]; exact hc.1)
          rw [show strLower p.2.name = q by rw [hps]; exact hc.2, hcase] at this
          exact Option.noConfusion this
        rw [domIdxFold_preserve (AMap.values t.nodes) q [] hno]
        rfl
  refine ⟨?_, hRnodes, ?_, ?_⟩
  · show ((F.remove fresh).1).nodes.length = t.nodes.length
    rw [hRnodes]
  · intro id
    show ((F.remove fresh).1).nodes.find? id = t.nodes.find? id
    rw [hRnodes]
  · intro name
    unfold ContextTree.getDomain
    rw [hRdom, hFdom, hdix (strLower name), hRnodes]

end Codex

namespace Codex

/-- Concrete well-formed tree for the C3 witness: root "r" with one domain. -/
def c3WitTree : ContextTree :=
  ((ContextTree.new "r").ensureDomain "d" "cooking").1

/-- Witness for `c3_roundtrip` at the concrete tree (fresh uuid "f"). -/
theorem c3_roundtrip_witness :
    (TreeData.fromTree c3WitTree).map (fun d => (d.intoTree "f").nodeCount)
      = some c3WitTree.nodeCount := by
  have hd1 : ∀ q ∈ c3WitTree.domain_index, ∃ n,
      c3WitTree.nodes.find? (q.2 : String) = some n ∧
      n.node_type = NodeType.Domain ∧ strLower n.name = q.1 := by
    intro q hq
    have hdix : c3WitTree.domain_index = [("cooking", "d")] := rfl
    rw [hdix] at hq
    have hq' : q = ("cooking", "d") := by simpa using hq
    subst hq'
    exact ⟨{ ContextNode.domainNode "d" "cooking" with parent_id := some "r" }, rfl, rfl, rfl⟩
  obtain ⟨d, hfrom, hcount, -, -, -⟩ :=
    c3_roundtrip c3WitTree "f" (by decide) (by decide) (by decide) (by decide) hd1 (by decide)
  rw [hfrom]
  simp only [Option.map_some']
  rw [hcount]

end Codex

namespace Codex

/-! ## Claim C4: `build_cross_links`

Infrastructure: `build_cross_links` only ever appends to `related_nodes`
fields. `RelExtendsP P t0 t1` states that `t1` is `t0` with, per node, some
extra related links each satisfying `P`; everything needed about the fold is
derived from it. -/

/-- C4 link-shape predicate: every link that `build_cross_links` adds to node
`k` is a `SameTechnology` link of strength 0.7 to a node in another branch
(and never to `k` itself). -/
def PGood (t0 : ContextTree) (k : String) (l : RelatedNode) : Prop :=
  l.relationship = CrossLinkType.SameTechnology ∧ l.strength = 7/10 ∧
  t0.areInSameBranch k l.node_id = false ∧ l.node_id ≠ k

/-- `t1` is `t0` with extra related links (each satisfying `P`). -/
def RelExtendsP (P : String → RelatedNode → Prop) (t0 t1 : ContextTree) : Prop :=
  t1.root_id = t0.root_id ∧
  AMap.keys t1.nodes = AMap.keys t0.nodes ∧
  ∀ k, ∃ extra : List RelatedNode, (∀ l ∈ extra, P k l) ∧
    t1.nodes.find? k = (t0.nodes.find? k).map
      (fun n => { n with related_nodes := n.related_nodes ++ extra })

theorem relExt_refl (P : String → RelatedNode → Prop) (t : ContextTree) :
    RelExtendsP P t t := by
  refine ⟨rfl, rfl, fun k => ⟨[], by simp, ?_⟩⟩
  cases t.nodes.find? k <;> simp

theorem relExt_trans (P : String → RelatedNode → Prop) (t0 t1 t2 : ContextTree)
    (h01 : RelExtendsP P t0 t1) (h12 : RelExtendsP P t1 t2) :
    RelExtendsP P t0 t2 := by
  obtain ⟨hr01, hk01, hf01⟩ := h01
  obtain ⟨hr12, hk12, hf12⟩ := h12
  refine ⟨hr12.trans hr01, hk12.trans hk01, fun k => ?_⟩
  obtain ⟨e1, hp1, he1⟩ := hf01 k
  obtain ⟨e2, hp2, he2⟩ := hf12 k
  refine ⟨e1 ++ e2, ?_, ?_⟩
  · intro l hl
    rcases List.mem_append.mp hl with h | h
    · exact hp1 l h
    · exact hp2 l h
  · rw [he2, he1, Option.map_map]
    cases t0.nodes.find? k <;> simp [Function.comp, List.append_assoc]

theorem relExt_weaken (P Q : String → RelatedNode → Prop) (t0 t1 : ContextTree)
    (h : RelExtendsP P t0 t1) (hw : ∀ k l, P k l → Q k l) :
    RelExtendsP Q t0 t1 := by
  obtain ⟨hr, hk, hf⟩ := h
  exact ⟨hr, hk, fun k =>
    (hf k).elim (fun e he => ⟨e, fun l hl => hw k l (he.1 l hl), he.2⟩)⟩

/-- Id and parent skeleton of an optional node. -/
def NodeSkel (o : Option ContextNode) : Option (String × Option String) :=
  o.map (fun n => (n.id, n.parent_id))

theorem relExt_skel (P : String → RelatedNode → Prop) (t0 t1 : ContextTree)
    (h : RelExtendsP P t0 t1) (k : String) :
    NodeSkel (t1.nodes.find? k) = NodeSkel (t0.nodes.find? k) := by
  obtain ⟨-, -, hf⟩ := h
  obtain ⟨e, -, he⟩ := hf k
  rw [NodeSkel, NodeSkel, he, Option.map_map]
  cases t0.nodes.find? k <;> simp [Function.comp]

theorem relExt_count (P : String → RelatedNode → Prop) (t0 t1 : ContextTree)
    (h : RelExtendsP P t0 t1) : t1.nodeCount = t0.nodeCount := by
  obtain ⟨-, hk, -⟩ := h
  have h1 : (AMap.keys t1.nodes).length = (AMap.keys t0.nodes).length := by rw [hk]
  simpa [AMap.keys, ContextTree.nodeCount] using h1

theorem relExt_isSome (P : String → RelatedNode → Prop) (t0 t1 : ContextTree)
    (h : RelExtendsP P t0 t1) (k : String) :
    (t1.nodes.find? k).isSome = (t0.nodes.find? k).isSome := by
  obtain ⟨-, -, hf⟩ := h
  obtain ⟨e, -, he⟩ := hf k
  rw [he]
  cases t0.nodes.find? k <;> simp

theorem ancestryAux_map_congr (t0 t1 : ContextTree)
    (hskel : ∀ k, NodeSkel (t1.nodes.find? k) = NodeSkel (t0.nodes.find? k)) :
    ∀ fuel cur acc0 acc1,
      acc1.map (fun n => n.id) = acc0.map (fun n => n.id) →
      (ContextTree.getAncestryAux t1 fuel cur acc1).map (fun l => l.map (fun n => n.id)) =
      (ContextTree.getAncestryAux t0 fuel cur acc0).map (fun l => l.map (fun n => n.id)) := by
  intro fuel
  induction fuel with
  | zero =>
      intro cur acc0 acc1 hacc
      cases cur with
      | none => simp [ContextTree.getAncestryAux, hacc]
      | some id => simp [ContextTree.getAncestryAux]
  | succ f ih =>
      intro cur acc0 acc1 hacc
      cases cur with
      | none => simp [ContextTree.getAncestryAux, hacc]
      | some id =>
          have hs := hskel id
          cases h1 : t1.nodes.find? id with
          | none =>
              cases h0 : t0.nodes.find? id with
              | none =>
                  simp [ContextTree.getAncestryAux, h1, h0, hacc]
              | some n0 =>
                  rw [NodeSkel, NodeSkel, h1, h0] at hs
                  exact absurd hs (by simp)
          | some n1 =>
              cases h0 : t0.nodes.find? id with
              | none =>
                  rw [NodeSkel, NodeSkel, h1, h0] at hs
                  exact absurd hs (by simp)
              | some n0 =>
                  rw [NodeSkel, NodeSkel, h1, h0] at hs
                  have hid : n1.id = n0.id := (Prod.mk.injEq _ _ _ _ ▸ Option.some.inj hs).1
                  have hpar : n1.parent_id = n0.parent_id :=
                    (Prod.mk.injEq _ _ _ _ ▸ Option.some.inj hs).2
                  have hstep1 : ContextTree.getAncestryAux t1 (f + 1) (some id) acc1 =
                      ContextTree.getAncestryAux t1 f n1.parent_id (n1 :: acc1) := by
                    simp only [ContextTree.getAncestryAux, h1]
                  have hstep0 : ContextTree.getAncestryAux t0 (f + 1) (some id) acc0 =
                      ContextTree.getAncestryAux t0 f n0.parent_id (n0 :: acc0) := by
                    simp only [ContextTree.getAncestryAux, h0]
                  rw [hstep1, hstep0, hpar]
                  exact ih n0.parent_id (n0 :: acc0) (n1 :: acc1) (by simp [hid, hacc])

theorem getAncestry_ids_congr (t0 t1 : ContextTree)
    (hskel : ∀ k, NodeSkel (t1.nodes.find? k) = NodeSkel (t0.nodes.find? k))
    (hcount : t1.nodeCount = t0.nodeCount) (id : String) :
    (t1.getAncestry id).map (fun n => n.id) = (t0.getAncestry id).map (fun n => n.id) := by
  have hcong := ancestryAux_map_congr t0 t1 hskel (t0.nodeCount + 1) (some id) [] [] rfl
  unfold ContextTree.getAncestry
  rw [hcount]
  cases h1 : ContextTree.getAncestryAux t1 (t0.nodeCount + 1) (some id) [] with
  | none =>
      rw [h1] at hcong
      cases h0 : ContextTree.getAncestryAux t0 (t0.nodeCount + 1) (some id) [] with
      | none => simp
      | some l0 => rw [h0] at hcong; exact absurd hcong (by simp)
  | some l1 =>
      rw [h1] at hcong
      cases h0 : ContextTree.getAncestryAux t0 (t0.nodeCount + 1) (some id) [] with
      | none => rw [h0] at hcong; exact absurd hcong (by simp)
      | some l0 =>
          rw [h0] at hcong
          simpa using hcong

theorem sameBranch_congr (t0 t1 : ContextTree)
    (hskel : ∀ k, NodeSkel (t1.nodes.find? k) = NodeSkel (t0.nodes.find? k))
    (hcount : t1.nodeCount = t0.nodeCount) (a b : String) :
    t1.areInSameBranch a b = t0.areInSameBranch a b := by
  unfold ContextTree.areInSameBranch
  rw [getAncestry_ids_congr t0 t1 hskel hcount a, getAncestry_ids_congr t0 t1 hskel hcount b]

end Codex

namespace Codex

theorem AMap.keys_insert_of_present {α : Type} (m : AMap α) (k : String) (v w : α)
    (h : AMap.find? m k = some w) : AMap.keys (AMap.insert m k v) = AMap.keys m := by
  induction m with
  | nil => exact Option.noConfusion h
  | cons hd tl ih =>
      obtain ⟨k', v'⟩ := hd
      rw [AMap.find?_cons] at h
      by_cases hk : k' = k
      · simp [AMap.insert, hk, AMap.keys]
      · rw [if_neg hk] at h
        simp only [AMap.insert, if_neg hk, AMap.keys, List.map_cons]
        have := ih h
        simp only [AMap.keys] at this
        rw [this]

theorem list_mem_of_getLast? {β : Type} (l : List β) (a : β)
    (h : l.getLast? = some a) : a ∈ l := by
  induction l with
  | nil => exact Option.noConfusion h
  | cons x xs ih =>
      cases hx : xs with
      | nil =>
          rw [hx] at h
          exact List.mem_singleton.mpr (Option.some.inj h).symm
      | cons y ys =>
          rw [hx] at h ih
          have hys : (y :: ys).getLast? = some a := by
            rw [← h]
            rfl
          exact List.mem_cons_of_mem _ (ih hys)

theorem sameBranch_comm (t : ContextTree) (a b : String) :
    t.areInSameBranch a b = t.areInSameBranch b a := by
  unfold ContextTree.areInSameBranch
  exact Bool.or_comm _ _

/-- A node present in an acyclic tree is in its own ancestry chain. -/
theorem selfInBranch (t : ContextTree) (rank : String → Nat)
    (hr : WellRanked t rank) (hb : RankBounded t rank) (hid : IdConsistent t)
    (a : String) (ha : (t.nodes.find? a).isSome = true) :
    t.areInSameBranch a a = true := by
  obtain ⟨na, hna⟩ := Option.isSome_iff_exists.mp ha
  have hlt : rank a < t.nodeCount := hb a ha
  have hsome := ancestryAux_isSome t rank hr (t.nodeCount + 1) a [] (by omega)
  obtain ⟨l, hl⟩ := Option.isSome_iff_exists.mp hsome
  obtain ⟨w, hw, hw1, -, -, -⟩ := ancestryAux_walk t hid (t.nodeCount + 1) a [] l hl
  rw [List.append_nil] at hw
  subst hw
  obtain ⟨-, hlast⟩ := hw1 na hna
  have hmem : na ∈ l := list_mem_of_getLast? l na hlast
  have hga : t.getAncestry a = l := by simp [ContextTree.getAncestry, hl]
  have hmm : a ∈ l.map (fun n => n.id) := by
    have h1 : na.id ∈ l.map (fun n => n.id) := List.mem_map_of_mem _ hmem
    rwa [hid a na hna] at h1
  have hc : (l.map (fun n => n.id)).contains a = true := by
    simpa [List.contains] using hmm
  unfold ContextTree.areInSameBranch
  rw [hga]
  show ((l.map (fun n => n.id)).contains a || (l.map (fun n => n.id)).contains a) = true
  rw [hc]
  rfl

/-- `relatedTo t a b`: node `a` carries some related link pointing at `b`. -/
def relatedTo (t : ContextTree) (a b : String) : Prop :=
  ∃ n, t.nodes.find? a = some n ∧ n.related_nodes.any (fun r => r.node_id == b) = true

theorem relatedTo_mono (P : String → RelatedNode → Prop) (t0 t1 : ContextTree)
    (h : RelExtendsP P t0 t1) (a b : String) :
    relatedTo t0 a b → relatedTo t1 a b := by
  rintro ⟨n, hf, hany⟩
  obtain ⟨-, -, hfe⟩ := h
  obtain ⟨e, -, he⟩ := hfe a
  refine ⟨{ n with related_nodes := n.related_nodes ++ e }, ?_, ?_⟩
  · rw [he, hf]
    rfl
  · simp only [List.any_append, hany, Bool.true_or]

/-- Appending one related link to a present node is a `RelExtendsP` step. -/
theorem insertRelated_relExt (P : String → RelatedNode → Prop) (u : ContextTree)
    (x : String) (nx : ContextNode) (lk : RelatedNode)
    (hfx : u.nodes.find? x = some nx) (hP : P x lk) :
    RelExtendsP P u
      { u with nodes := u.nodes.insert x { nx with related_nodes := nx.related_nodes ++ [lk] } } := by
  refine ⟨rfl, AMap.keys_insert_of_present u.nodes x _ nx hfx, fun k => ?_⟩
  by_cases hk : k = x
  · subst hk
    refine ⟨[lk], ?_, ?_⟩
    · intro l hl
      rw [List.mem_singleton.mp hl]
      exact hP
    · show AMap.find? (AMap.insert u.nodes k _) k = _
      rw [AMap.find?_insert_self, hfx]
      rfl
  · refine ⟨[], by simp, ?_⟩
    show AMap.find? (AMap.insert u.nodes x _) k = _
    rw [AMap.find?_insert_ne _ _ _ _ hk]
    cases u.nodes.find? k <;> simp

/-- The 0.7-strength `SameTechnology` link record built in the pair loop. -/
def mkTechLink (target : String) : RelatedNode :=
  { node_id := target, relationship := CrossLinkType.SameTechnology,
    strength := 7/10, reason := none }

/-- One side of the pair-linking body of `build_cross_links` (tree.rs
lines 337-353): add the link to node `x` unless `x` is absent or already
linked to `y`. -/
def sideUpd (t : ContextTree) (x y : String) (lk : RelatedNode) : ContextTree :=
  match t.nodes.find? x with
  | some nx =>
      if nx.related_nodes.any (fun r => r.node_id == y) then t
      else { t with nodes := t.nodes.insert x { nx with related_nodes := nx.related_nodes ++ [lk] } }
  | none => t

theorem linkPair_eq (t : ContextTree) (a b : String) :
    t.linkPair a b =
      if t.areInSameBranch a b then t
      else sideUpd (sideUpd t a b (mkTechLink b)) b a (mkTechLink a) := rfl

theorem sideUpd_relExt (P : String → RelatedNode → Prop) (u : ContextTree)
    (x y : String) (lk : RelatedNode)
    (hP : (u.nodes.find? x).isSome = true → P x lk) :
    RelExtendsP P u (sideUpd u x y lk) := by
  unfold sideUpd
  split
  · rename_i nx heq
    split
    · exact relExt_refl P u
    · exact insertRelated_relExt P u x nx lk heq (hP (by simp [heq]))
  · exact relExt_refl P u

/-- The pair-loop body only appends `PGood` links. -/
theorem linkPair_step (t0 ti : ContextTree) (rank : String → Nat)
    (hr : WellRanked t0 rank) (hb : RankBounded t0 rank) (hid : IdConsistent t0)
    (hre : RelExtendsP (PGood t0) t0 ti) (a b : String) :
    RelExtendsP (PGood t0) ti (ti.linkPair a b) := by
  rw [linkPair_eq]
  by_cases h : ti.areInSameBranch a b = true
  · rw [if_pos h]
    exact relExt_refl _ _
  · rw [if_neg h]
    have hskel := relExt_skel _ _ _ hre
    have hcount := relExt_count _ _ _ hre
    have hsb0 : t0.areInSameBranch a b = false := by
      rw [← sameBranch_congr t0 ti hskel hcount a b]
      exact Bool.eq_false_iff.mpr h
    have hPa : (ti.nodes.find? a).isSome = true → PGood t0 a (mkTechLink b) := by
      intro hsa
      have hpa : (t0.nodes.find? a).isSome = true := by
        rw [← relExt_isSome _ _ _ hre a]
        exact hsa
      refine ⟨rfl, rfl, hsb0, ?_⟩
      intro hc
      have hc' : b = a := hc
      subst hc'
      rw [selfInBranch t0 rank hr hb hid b hpa] at hsb0
      exact Bool.noConfusion hsb0
    have step1 : RelExtendsP (PGood t0) ti (sideUpd ti a b (mkTechLink b)) :=
      sideUpd_relExt (PGood t0) ti a b (mkTechLink b) hPa
    have hre1 : RelExtendsP (PGood t0) t0 (sideUpd ti a b (mkTechLink b)) :=
      relExt_trans _ _ _ _ hre step1
    have hPb : ((sideUpd ti a b (mkTechLink b)).nodes.find? b).isSome = true →
        PGood t0 b (mkTechLink a) := by
      intro hsb
      have hpb : (t0.nodes.find? b).isSome = true := by
        rw [← relExt_isSome _ _ _ hre1 b]
        exact hsb
      refine ⟨rfl, rfl, ?_, ?_⟩
      · show t0.areInSameBranch b a = false
        rw [sameBranch_comm t0 b a]
        exact hsb0
      · intro hc
        have hc' : a = b := hc
        subst hc'
        rw [sameBranch_comm t0 a a] at hsb0
        rw [selfInBranch t0 rank hr hb hid a hpb] at hsb0
        exact Bool.noConfusion hsb0
    exact relExt_trans _ _ _ _ step1
      (sideUpd_relExt (PGood t0) _ b a (mkTechLink a) hPb)

end Codex

namespace Codex

/-- Generic fold invariant: a property preserved by every step survives a
`foldl`. -/
theorem foldl_inv {σ β : Type} (p : σ → Prop) (f : σ → β → σ)
    (hstep : ∀ s x, p s → p (f s x)) :
    ∀ (l : List β) (s : σ), p s → p (l.foldl f s) := by
  intro l
  induction l with
  | nil => intro s hs; exact hs
  | cons x xs ih => intro s hs; exact ih (f s x) (hstep s x hs)

/-- Generic fold establishment: once the element `x0` is processed the
property `Q` holds, and every step preserves the invariant `I` and `Q`. -/
theorem foldl_est {σ β : Type} (I Q : σ → Prop) (f : σ → β → σ) (x0 : β)
    (hI : ∀ s x, I s → I (f s x))
    (hQ : ∀ s x, I s → Q s → Q (f s x))
    (hhit : ∀ s, I s → Q (f s x0)) :
    ∀ (l : List β) (s : σ), x0 ∈ l → I s → Q (l.foldl f s) := by
  intro l
  induction l with
  | nil => intro s hm; cases hm
  | cons y ys ih =>
      intro s hm hs
      rcases List.mem_cons.mp hm with he | hm'
      · subst he
        have h2 : I (f s x0) ∧ Q (f s x0) := ⟨hI s x0 hs, hhit s hs⟩
        exact (foldl_inv (fun u => I u ∧ Q u) f
          (fun u x hp => ⟨hI u x hp.1, hQ u x hp.1 hp.2⟩) ys (f s x0) h2).2
      · exact ih (f s y) hm' (hI s y hs)

/-- Membership of node id `x` in the tech-index bucket for `nm`. -/
@[reducible] def memIdx (idx : AMap (List String)) (nm x : String) : Prop :=
  ∃ ids, AMap.find? idx nm = some ids ∧ x ∈ ids

theorem memIdx_insert_append (idx : AMap (List String)) (nm nm' x k : String)
    (h : memIdx idx nm x) :
    memIdx (AMap.insert idx nm' ((AMap.find? idx nm').getD [] ++ [k])) nm x := by
  obtain ⟨ids, hf, hx⟩ := h
  by_cases he : nm' = nm
  · subst he
    refine ⟨(AMap.find? idx nm').getD [] ++ [k], AMap.find?_insert_self _ _ _, ?_⟩
    rw [hf]
    exact List.mem_append.mpr (Or.inl hx)
  · refine ⟨ids, ?_, hx⟩
    rw [AMap.find?_insert_ne _ _ _ _ (fun hc : nm = nm' => he hc.symm)]
    exact hf

/-- The per-entity step of the tech-index loop preserves bucket membership. -/
theorem entStep_memIdx (idx : AMap (List String)) (nm x k : String) (e : Entity)
    (h : memIdx idx nm x) :
    memIdx (if e.entity_type = EntityType.Technology then
        AMap.insert idx e.normalized_name
          ((AMap.find? idx e.normalized_name).getD [] ++ [k])
      else idx) nm x := by
  by_cases ht : e.entity_type = EntityType.Technology
  · rw [if_pos ht]
    exact memIdx_insert_append idx nm e.normalized_name x k h
  · rw [if_neg ht]
    exact h

/-- Processing a Technology entity puts its node into its bucket. -/
theorem entStep_hit (idx : AMap (List String)) (k : String) (e : Entity)
    (ht : e.entity_type = EntityType.Technology) :
    memIdx (if e.entity_type = EntityType.Technology then
        AMap.insert idx e.normalized_name
          ((AMap.find? idx e.normalized_name).getD [] ++ [k])
      else idx) e.normalized_name k := by
  rw [if_pos ht]
  refine ⟨(AMap.find? idx e.normalized_name).getD [] ++ [k],
    AMap.find?_insert_self _ _ _, ?_⟩
  exact List.mem_append.mpr (Or.inr (List.mem_singleton.mpr rfl))

/-- The per-key step of the tech-index loop preserves bucket membership. -/
theorem outerStep_memIdx (t : ContextTree) (s : AMap (List String)) (nm x id : String)
    (h : memIdx s nm x) :
    memIdx (match t.nodes.find? id with
      | some node =>
          node.entities.foldl
            (fun idx e =>
              if e.entity_type = EntityType.Technology then
                AMap.insert idx e.normalized_name
                  ((AMap.find? idx e.normalized_name).getD [] ++ [id])
              else idx)
            s
      | none => s) nm x := by
  cases hf : t.nodes.find? id with
  | none => exact h
  | some node =>
      exact foldl_inv (fun idx => memIdx idx nm x) _
        (fun s2 e hp => entStep_memIdx s2 nm x id e hp) node.entities s h

/-- Processing the key of a present node with a Technology entity puts the
node into that entity's bucket. -/
theorem outerStep_hit (t : ContextTree) (s : AMap (List String)) (a : String)
    (na : ContextNode) (e : Entity) (hna : t.nodes.find? a = some na)
    (he : e ∈ na.entities) (ht : e.entity_type = EntityType.Technology) :
    memIdx (match t.nodes.find? a with
      | some node =>
          node.entities.foldl
            (fun idx e2 =>
              if e2.entity_type = EntityType.Technology then
                AMap.insert idx e2.normalized_name
                  ((AMap.find? idx e2.normalized_name).getD [] ++ [a])
              else idx)
            s
      | none => s) e.normalized_name a := by
  rw [hna]
  exact foldl_est (fun _ => True) (fun idx => memIdx idx e.normalized_name a) _ e
    (fun _ _ _ => trivial)
    (fun s2 e2 _ hq => entStep_memIdx s2 e.normalized_name a a e2 hq)
    (fun s2 _ => entStep_hit s2 a e ht)
    na.entities s he trivial

/-- Tech-index completeness: a present node with a Technology entity appears
in the index bucket of that entity's normalized name (tree.rs 313-330). -/
theorem techIndex_complete (t : ContextTree) (a : String) (na : ContextNode) (e : Entity)
    (hna : t.nodes.find? a = some na) (he : e ∈ na.entities)
    (ht : e.entity_type = EntityType.Technology) :
    ∃ ids, AMap.find? t.buildTechIndex e.normalized_name = some ids ∧ a ∈ ids := by
  have hak : a ∈ AMap.keys t.nodes :=
    AMap.mem_keys_of_find?_isSome t.nodes a (by rw [hna]; rfl)
  unfold ContextTree.buildTechIndex
  exact foldl_est (fun _ => True) (fun idx => memIdx idx e.normalized_name a) _ a
    (fun _ _ _ => trivial)
    (fun s id _ hq => outerStep_memIdx t s e.normalized_name a id hq)
    (fun s _ => outerStep_hit t s a na e hna he ht)
    (AMap.keys t.nodes) [] hak trivial

end Codex

namespace Codex

theorem two_mem_length_gt {β : Type} (l : List β) (a b : β)
    (ha : a ∈ l) (hb : b ∈ l) (hne : a ≠ b) : 1 < l.length := by
  cases l with
  | nil => cases ha
  | cons x xs =>
      cases xs with
      | nil =>
          rw [List.mem_singleton] at ha hb
          exact absurd (ha.trans hb.symm) hne
      | cons y ys =>
          simp only [List.length_cons]
          omega

/-- Two distinct members of a list occur as an ordered pair, in one of the
two orders, among the `i < j` pairs of the nested loops. -/
theorem allPairs_cover {β : Type} (l : List β) (a b : β)
    (ha : a ∈ l) (hb : b ∈ l) (hne : a ≠ b) :
    (a, b) ∈ ContextTree.allPairs l ∨ (b, a) ∈ ContextTree.allPairs l := by
  induction l with
  | nil => cases ha
  | cons x xs ih =>
      rcases List.mem_cons.mp ha with hax | hax
      · subst hax
        have hbxs : b ∈ xs := by
          rcases List.mem_cons.mp hb with hbx | hbx
          · exact absurd hbx.symm hne
          · exact hbx
        left
        unfold ContextTree.allPairs
        exact List.mem_append.mpr (Or.inl (List.mem_map.mpr ⟨b, hbxs, rfl⟩))
      · rcases List.mem_cons.mp hb with hbx | hbx
        · subst hbx
          right
          unfold ContextTree.allPairs
          exact List.mem_append.mpr (Or.inl (List.mem_map.mpr ⟨a, hax, rfl⟩))
        · rcases ih hax hbx with h | h
          · left
            unfold ContextTree.allPairs
            exact List.mem_append.mpr (Or.inr h)
          · right
            unfold ContextTree.allPairs
            exact List.mem_append.mpr (Or.inr h)

/-- One side-update on a present node leaves it related to the target. -/
theorem sideUpd_establishes (u : ContextTree) (x y : String)
    (hx : (u.nodes.find? x).isSome = true) :
    relatedTo (sideUpd u x y (mkTechLink y)) x y := by
  unfold sideUpd
  split
  · rename_i nx heq
    split
    · rename_i hany
      exact ⟨nx, heq, hany⟩
    · refine ⟨{ nx with related_nodes := nx.related_nodes ++ [mkTechLink y] },
        AMap.find?_insert_self _ _ _, ?_⟩
      simp [mkTechLink]
  · rename_i heq
    rw [heq] at hx
    exact Bool.noConfusion hx

/-- One pair-loop iteration on a cross-branch pair of present nodes leaves
them reciprocally related. -/
theorem linkPair_establish (t0 ti : ContextTree) (a b : String)
    (hre : RelExtendsP (PGood t0) t0 ti)
    (hsb : t0.areInSameBranch a b = false)
    (hpa : (t0.nodes.find? a).isSome = true)
    (hpb : (t0.nodes.find? b).isSome = true) :
    relatedTo (ti.linkPair a b) a b ∧ relatedTo (ti.linkPair a b) b a := by
  have hskel := relExt_skel _ _ _ hre
  have hcount := relExt_count _ _ _ hre
  have hne : ¬ ti.areInSameBranch a b = true := by
    rw [sameBranch_congr t0 ti hskel hcount a b, hsb]
    decide
  rw [linkPair_eq, if_neg hne]
  have hsa : (ti.nodes.find? a).isSome = true := by
    rw [relExt_isSome _ _ _ hre a]
    exact hpa
  have h1 : relatedTo (sideUpd ti a b (mkTechLink b)) a b :=
    sideUpd_establishes ti a b hsa
  have e1 : RelExtendsP (fun _ _ => True) ti (sideUpd ti a b (mkTechLink b)) :=
    sideUpd_relExt _ ti a b _ (fun _ => trivial)
  have hsb1 : ((sideUpd ti a b (mkTechLink b)).nodes.find? b).isSome = true := by
    rw [relExt_isSome _ _ _ e1 b, relExt_isSome _ _ _ hre b]
    exact hpb
  have h2 : relatedTo (sideUpd (sideUpd ti a b (mkTechLink b)) b a (mkTechLink a)) b a :=
    sideUpd_establishes _ b a hsb1
  have e2 : RelExtendsP (fun _ _ => True) (sideUpd ti a b (mkTechLink b))
      (sideUpd (sideUpd ti a b (mkTechLink b)) b a (mkTechLink a)) :=
    sideUpd_relExt _ _ b a _ (fun _ => trivial)
  exact ⟨relatedTo_mono _ _ _ e2 a b h1, h2⟩

/-- The pair fold keeps extending `t0` with `PGood` links. -/
theorem pairFold_I (t0 : ContextTree) (rank : String → Nat)
    (hr : WellRanked t0 rank) (hb : RankBounded t0 rank) (hid : IdConsistent t0)
    (ps : List (String × String)) (s : ContextTree)
    (hs : RelExtendsP (PGood t0) t0 s) :
    RelExtendsP (PGood t0) t0 (ps.foldl (fun t p => t.linkPair p.1 p.2) s) :=
  foldl_inv (fun u => RelExtendsP (PGood t0) t0 u) _
    (fun u p hp => relExt_trans _ _ _ _ hp (linkPair_step t0 u rank hr hb hid hp p.1 p.2))
    ps s hs

/-- The pair fold extends its own start state with `PGood` links. -/
theorem pairFold_rel (t0 : ContextTree) (rank : String → Nat)
    (hr : WellRanked t0 rank) (hb : RankBounded t0 rank) (hid : IdConsistent t0)
    (ps : List (String × String)) (s : ContextTree)
    (hs : RelExtendsP (PGood t0) t0 s) :
    RelExtendsP (PGood t0) s (ps.foldl (fun t p => t.linkPair p.1 p.2) s) := by
  have h := foldl_inv
    (fun u => RelExtendsP (PGood t0) t0 u ∧ RelExtendsP (PGood t0) s u) _
    (fun u p hp =>
      ⟨relExt_trans _ _ _ _ hp.1 (linkPair_step t0 u rank hr hb hid hp.1 p.1 p.2),
       relExt_trans _ _ _ _ hp.2 (linkPair_step t0 u rank hr hb hid hp.1 p.1 p.2)⟩)
    ps s ⟨hs, relExt_refl _ _⟩
  exact h.2

/-- The per-tech-name step of `build_cross_links` keeps extending `t0`. -/
theorem entryStep_I (t0 : ContextTree) (rank : String → Nat)
    (hr : WellRanked t0 rank) (hb : RankBounded t0 rank) (hid : IdConsistent t0)
    (s : ContextTree) (entry : String × List String)
    (hs : RelExtendsP (PGood t0) t0 s) :
    RelExtendsP (PGood t0) t0
      (if 1 < entry.2.length then
        (ContextTree.allPairs entry.2).foldl (fun t p => t.linkPair p.1 p.2) s
      else s) := by
  by_cases hlen : 1 < entry.2.length
  · rw [if_pos hlen]
    exact pairFold_I t0 rank hr hb hid _ s hs
  · rw [if_neg hlen]
    exact hs

/-- The per-tech-name step preserves established relatedness. -/
theorem entryStep_Q (t0 : ContextTree) (rank : String → Nat)
    (hr : WellRanked t0 rank) (hb : RankBounded t0 rank) (hid : IdConsistent t0)
    (s : ContextTree) (entry : String × List String) (a b : String)
    (hs : RelExtendsP (PGood t0) t0 s)
    (hq : relatedTo s a b ∧ relatedTo s b a) :
    relatedTo (if 1 < entry.2.length then
        (ContextTree.allPairs entry.2).foldl (fun t p => t.linkPair p.1 p.2) s
      else s) a b ∧
    relatedTo (if 1 < entry.2.length then
        (ContextTree.allPairs entry.2).foldl (fun t p => t.linkPair p.1 p.2) s
      else s) b a := by
  by_cases hlen : 1 < entry.2.length
  · rw [if_pos hlen]
    have hrel := pairFold_rel t0 rank hr hb hid (ContextTree.allPairs entry.2) s hs
    exact ⟨relatedTo_mono _ _ _ hrel a b hq.1, relatedTo_mono _ _ _ hrel b a hq.2⟩
  · rw [if_neg hlen]
    exact hq

/-- Processing the bucket of a shared tech name establishes the reciprocal
links of a cross-branch pair of present nodes. -/
theorem entryStep_hit (t0 : ContextTree) (rank : String → Nat)
    (hr : WellRanked t0 rank) (hb : RankBounded t0 rank) (hid : IdConsistent t0)
    (a b : String) (ids : List String) (hlen : 1 < ids.length)
    (hpair : (a, b) ∈ ContextTree.allPairs ids ∨ (b, a) ∈ ContextTree.allPairs ids)
    (hsb : t0.areInSameBranch a b = false)
    (hpa : (t0.nodes.find? a).isSome = true) (hpb : (t0.nodes.find? b).isSome = true)
    (s : ContextTree) (hs : RelExtendsP (PGood t0) t0 s) :
    relatedTo (if 1 < ids.length then
        (ContextTree.allPairs ids).foldl (fun t p => t.linkPair p.1 p.2) s
      else s) a b ∧
    relatedTo (if 1 < ids.length then
        (ContextTree.allPairs ids).foldl (fun t p => t.linkPair p.1 p.2) s
      else s) b a := by
  rw [if_pos hlen]
  have hI : ∀ (u : ContextTree) (p : String × String),
      RelExtendsP (PGood t0) t0 u → RelExtendsP (PGood t0) t0 (u.linkPair p.1 p.2) :=
    fun u p hp => relExt_trans _ _ _ _ hp (linkPair_step t0 u rank hr hb hid hp p.1 p.2)
  have hQ : ∀ (u : ContextTree) (p : String × String),
      RelExtendsP (PGood t0) t0 u →
      relatedTo u a b ∧ relatedTo u b a →
      relatedTo (u.linkPair p.1 p.2) a b ∧ relatedTo (u.linkPair p.1 p.2) b a :=
    fun u p hp hq =>
      ⟨relatedTo_mono _ _ _ (linkPair_step t0 u rank hr hb hid hp p.1 p.2) a b hq.1,
       relatedTo_mono _ _ _ (linkPair_step t0 u rank hr hb hid hp p.1 p.2) b a hq.2⟩
  rcases hpair with hp1 | hp1
  · exact foldl_est (fun u => RelExtendsP (PGood t0) t0 u)
      (fun u => relatedTo u a b ∧ relatedTo u b a) _ (a, b)
      hI hQ (fun u hu => linkPair_establish t0 u a b hu hsb hpa hpb)
      (ContextTree.allPairs ids) s hp1 hs
  · have hsb' : t0.areInSameBranch b a = false := by
      rw [sameBranch_comm t0 b a]
      exact hsb
    exact foldl_est (fun u => RelExtendsP (PGood t0) t0 u)
      (fun u => relatedTo u a b ∧ relatedTo u b a) _ (b, a)
      hI hQ (fun u hu =>
        ⟨(linkPair_establish t0 u b a hu hsb' hpb hpa).2,
         (linkPair_establish t0 u b a hu hsb' hpb hpa).1⟩)
      (ContextTree.allPairs ids) s hp1 hs

end Codex

namespace Codex

/-- C4: `build_cross_links()` (tree.rs lines 310-361), on a tree whose parent
links are acyclic (witnessed by a rank), (a) only appends related links, and
every link it appends to a node `k` is a `SameTechnology` link of strength
0.7 to a different node that is not in the same ancestry chain as `k` —
measured in the resulting tree, so no related-node pair it created lies on
the same ancestry chain; and (b) for every Technology entity normalized name
shared by two distinct present nodes that are not in the same ancestry
chain, the resulting tree carries reciprocal related links between them
(whether added now or already present). -/
theorem c4_cross_links (t : ContextTree) (rank : String → Nat)
    (hr : WellRanked t rank) (hb : RankBounded t rank) (hid : IdConsistent t) :
    (∀ k, ∃ extra : List RelatedNode,
        t.buildCrossLinks.nodes.find? k =
          (t.nodes.find? k).map
            (fun n => { n with related_nodes := n.related_nodes ++ extra }) ∧
        ∀ l ∈ extra, l.relationship = CrossLinkType.SameTechnology ∧
          l.strength = 7/10 ∧ l.node_id ≠ k ∧
          t.buildCrossLinks.areInSameBranch k l.node_id = false) ∧
    (∀ a b na nb ea eb,
        t.nodes.find? a = some na → t.nodes.find? b = some nb →
        ea ∈ na.entities → eb ∈ nb.entities →
        ea.entity_type = EntityType.Technology →
        eb.entity_type = EntityType.Technology →
        ea.normalized_name = eb.normalized_name → a ≠ b →
        t.areInSameBranch a b = false →
        relatedTo t.buildCrossLinks a b ∧ relatedTo t.buildCrossLinks b a) := by
  have hmain : RelExtendsP (PGood t) t t.buildCrossLinks := by
    unfold ContextTree.buildCrossLinks
    exact foldl_inv (fun s => RelExtendsP (PGood t) t s) _
      (fun s entry hp => entryStep_I t rank hr hb hid s entry hp)
      t.buildTechIndex t (relExt_refl _ _)
  constructor
  · intro k
    have hskel := relExt_skel _ _ _ hmain
    have hcount := relExt_count _ _ _ hmain
    obtain ⟨-, -, hfe⟩ := hmain
    obtain ⟨extra, hgood, he⟩ := hfe k
    refine ⟨extra, he, fun l hl => ?_⟩
    have hg := hgood l hl
    unfold PGood at hg
    obtain ⟨h1, h2, h3, h4⟩ := hg
    refine ⟨h1, h2, h4, ?_⟩
    rw [sameBranch_congr t t.buildCrossLinks hskel hcount k l.node_id]
    exact h3
  · intro a b na nb ea eb hna hnb hea heb hta htb hnm hne hsb
    obtain ⟨idsa, hfa, hma⟩ := techIndex_complete t a na ea hna hea hta
    obtain ⟨idsb, hfb, hmb⟩ := techIndex_complete t b nb eb hnb heb htb
    rw [hnm] at hfa
    have hids : idsa = idsb := Option.some.inj (hfa.symm.trans hfb)
    subst hids
    have hlen : 1 < idsa.length := two_mem_length_gt idsa a b hma hmb hne
    have hpair := allPairs_cover idsa a b hma hmb hne
    have hmem_ti : (eb.normalized_name, idsa) ∈ t.buildTechIndex :=
      AMap.mem_of_find? _ _ _ hfa
    have hpa : (t.nodes.find? a).isSome = true := by rw [hna]; rfl
    have hpb : (t.nodes.find? b).isSome = true := by rw [hnb]; rfl
    exact foldl_est (fun s => RelExtendsP (PGood t) t s)
      (fun s => relatedTo s a b ∧ relatedTo s b a) _ (eb.normalized_name, idsa)
      (fun s entry hp => entryStep_I t rank hr hb hid s entry hp)
      (fun s entry hp hq => entryStep_Q t rank hr hb hid s entry a b hp hq)
      (fun s hp => entryStep_hit t rank hr hb hid a b idsa hlen hpair hsb hpa hpb s hp)
      t.buildTechIndex t hmem_ti (relExt_refl _ _)

end Codex

namespace Codex

/-- A Rust Technology entity for the C4 witness (node "a"). -/
def c4EntA : Entity :=
  { id := "ea", name := "Rust", normalized_name := "rust",
    entity_type := EntityType.Technology, confidence := 1,
    mentions := [], attributes := [] }

/-- A Rust Technology entity for the C4 witness (node "b"). -/
def c4EntB : Entity :=
  { id := "eb", name := "Rust", normalized_name := "rust",
    entity_type := EntityType.Technology, confidence := 1,
    mentions := [], attributes := [] }

/-- C4 witness node "a": a Document carrying the Rust entity. -/
def c4NodeA : ContextNode :=
  { ContextNode.new "a" NodeType.Document "docA" with entities := [c4EntA] }

/-- C4 witness node "b": a second Document carrying the Rust entity. -/
def c4NodeB : ContextNode :=
  { ContextNode.new "b" NodeType.Document "docB" with entities := [c4EntB] }

/-- C4 witness tree: root plus two sibling-less documents sharing the tech
name "rust" (built with the public `insert`). -/
def c4WitTree : ContextTree :=
  ((ContextTree.new "root").insert c4NodeA).insert c4NodeB

theorem c4_wit_nodes :
    c4WitTree.nodes =
      [("root", ContextNode.rootNode "root"), ("a", c4NodeA), ("b", c4NodeB)] := rfl

theorem c4_wit_wr : WellRanked c4WitTree (fun _ => 0) := by
  intro k n h p hp hps
  rw [c4_wit_nodes, AMap.find?_cons] at h
  by_cases h1 : "root" = k
  · rw [if_pos h1] at h
    obtain rfl : ContextNode.rootNode "root" = n := Option.some.inj h
    exact Option.noConfusion hp
  · rw [if_neg h1, AMap.find?_cons] at h
    by_cases h2 : "a" = k
    · rw [if_pos h2] at h
      obtain rfl : c4NodeA = n := Option.some.inj h
      exact Option.noConfusion hp
    · rw [if_neg h2, AMap.find?_cons] at h
      by_cases h3 : "b" = k
      · rw [if_pos h3] at h
        obtain rfl : c4NodeB = n := Option.some.inj h
        exact Option.noConfusion hp
      · rw [if_neg h3] at h
        exact Option.noConfusion h

theorem c4_wit_rb : RankBounded c4WitTree (fun _ => 0) := by
  intro k h
  show 0 < c4WitTree.nodeCount
  decide

theorem c4_wit_ic : IdConsistent c4WitTree := by
  intro k n h
  rw [c4_wit_nodes, AMap.find?_cons] at h
  by_cases h1 : "root" = k
  · rw [if_pos h1] at h
    obtain rfl : ContextNode.rootNode "root" = n := Option.some.inj h
    rw [← h1]
    rfl
  · rw [if_neg h1, AMap.find?_cons] at h
    by_cases h2 : "a" = k
    · rw [if_pos h2] at h
      obtain rfl : c4NodeA = n := Option.some.inj h
      rw [← h2]
      rfl
    · rw [if_neg h2, AMap.find?_cons] at h
      by_cases h3 : "b" = k
      · rw [if_pos h3] at h
        obtain rfl : c4NodeB = n := Option.some.inj h
        rw [← h3]
        rfl
      · rw [if_neg h3] at h
        exact Option.noConfusion h

/-- Witness for `c4_cross_links`: on the concrete tree the hypotheses hold
and `build_cross_links` reciprocally links the two "rust" documents. -/
theorem c4_cross_links_witness :
    (WellRanked c4WitTree (fun _ => 0) ∧ RankBounded c4WitTree (fun _ => 0) ∧
      IdConsistent c4WitTree) ∧
    relatedTo c4WitTree.buildCrossLinks "a" "b" ∧
    relatedTo c4WitTree.buildCrossLinks "b" "a" :=
  ⟨⟨c4_wit_wr, c4_wit_rb, c4_wit_ic⟩,
    (c4_cross_links c4WitTree (fun _ => 0) c4_wit_wr c4_wit_rb c4_wit_ic).2
      "a" "b" c4NodeA c4NodeB c4EntA c4EntB rfl rfl
      (List.mem_singleton.mpr rfl) (List.mem_singleton.mpr rfl)
      rfl rfl rfl (by decide) rfl⟩

end Codex

namespace Codex

/-! ## Claim C6: entity identification, merging, filtering (`entity.rs`)

`EntityExtractor::extract` (entity.rs lines 338-359) keys candidates by
`format!("{:?}:{}", entity.entity_type, entity.normalized_name)` in a
`HashMap`, merges colliding candidates with `Entity::merge`, and filters by
`confidence >= min_confidence`. The per-chunk candidate generation
(`extract_from_chunk`, regex based) is modelled as an arbitrary function
`f : Chunk → List Entity`; the config's toggle flags live inside `f` and
only `min_confidence` is kept explicit. -/

/-- `ChunkType` (chunker.rs). -/
inductive ChunkType
  | Document
  | Section
  | Paragraph
  | Code
  | List
  | Table
  | Frontmatter
  | Text
deriving DecidableEq

/-- `ChunkMetadata` (chunker.rs). -/
structure ChunkMetadata where
  heading_level : Option Nat
  title : Option String
  language : Option String
  line_number : Option Nat
  is_continuation : Bool
deriving DecidableEq

/-- `ChunkMetadata::default`. -/
def ChunkMetadata.default : ChunkMetadata :=
  { heading_level := none, title := none, language := none,
    line_number := none, is_continuation := false }

/-- `Chunk` (chunker.rs). -/
structure Chunk where
  id : String
  content : String
  source : Option String
  chunk_type : ChunkType
  start_offset : Nat
  end_offset : Nat
  parent_id : Option String
  metadata : ChunkMetadata
deriving DecidableEq

/-- The `{:?}` (derived `Debug`) rendering of an `EntityType`. -/
def typeDebug : EntityType → String
  | EntityType.Person => "Person"
  | EntityType.Project => "Project"
  | EntityType.Technology => "Technology"
  | EntityType.Date => "Date"
  | EntityType.Location => "Location"
  | EntityType.Organization => "Organization"
  | EntityType.Version => "Version"
  | EntityType.Url => "Url"
  | EntityType.Email => "Email"
  | EntityType.Concept => "Concept"
  | EntityType.File => "File"
  | EntityType.CodeElement => "CodeElement"

/-- The `HashMap` key `format!("{:?}:{}", entity_type, normalized_name)`
built in `extract` (entity.rs line 345). -/
def entityKey (e : Entity) : String :=
  typeDebug e.entity_type ++ ":" ++ e.normalized_name

/-- The per-candidate step of `extract` (entity.rs lines 347-350):
`entities.entry(key).and_modify(|e| e.merge(entity)).or_insert(entity)`. -/
def extractStep (m : AMap Entity) (entity : Entity) : AMap Entity :=
  match AMap.find? m (entityKey entity) with
  | some e => AMap.insert m (entityKey entity) (e.merge entity)
  | none => AMap.insert m (entityKey entity) entity

/-- The accumulation loop of `extract` (entity.rs lines 341-352). -/
def extractMap (f : Chunk → List Entity) (chunks : List Chunk) : AMap Entity :=
  chunks.foldl (fun m chunk => (f chunk).foldl extractStep m) []

/-- `EntityExtractor::extract` (entity.rs lines 338-359): accumulate and
merge keyed candidates, then keep `confidence >= min_confidence`. -/
def extract (minConf : ℚ) (f : Chunk → List Entity) (chunks : List Chunk) :
    List Entity :=
  (AMap.values (extractMap f chunks)).filter (fun e => minConf ≤ e.confidence)

theorem typeDebug_inj : ∀ t1 t2 : EntityType, typeDebug t1 = typeDebug t2 → t1 = t2 := by
  intro t1 t2
  cases t1 <;> cases t2 <;> decide

theorem typeDebug_colon_free : ∀ t : EntityType, ':' ∉ (typeDebug t).data := by
  intro t
  cases t <;> decide

theorem append_colon_inj (l1 : List Char) : ∀ (l2 r1 r2 : List Char),
    ':' ∉ l1 → ':' ∉ l2 →
    l1 ++ ':' :: r1 = l2 ++ ':' :: r2 → l1 = l2 ∧ r1 = r2 := by
  induction l1 with
  | nil =>
      intro l2 r1 r2 h1 h2 h
      simp only [List.nil_append, List.cons_append] at h
      cases l2 with
      | nil =>
          simp only [List.nil_append] at h
          refine ⟨rfl, ?_⟩
          rw [List.cons.injEq] at h
          exact h.2
      | cons c l2' =>
          simp only [List.cons_append] at h
          exfalso
          injection h with hc _
          apply h2
          rw [hc]
          exact List.mem_cons_self c l2'
  | cons a l1' ih =>
      intro l2 r1 r2 h1 h2 h
      simp only [List.nil_append, List.cons_append] at h
      cases l2 with
      | nil =>
          simp only [List.nil_append] at h
          exfalso
          injection h with hc _
          apply h1
          rw [← hc]
          exact List.mem_cons_self a l1'
      | cons b l2' =>
          simp only [List.cons_append] at h
          injection h with hab htl
          have h1' : ':' ∉ l1' := fun hm => h1 (List.mem_cons_of_mem _ hm)
          have h2' : ':' ∉ l2' := fun hm => h2 (List.mem_cons_of_mem _ hm)
          obtain ⟨he, hr⟩ := ih l2' r1 r2 h1' h2' htl
          exact ⟨by rw [hab, he], hr⟩

theorem string_data_inj (s t : String) (h : s.data = t.data) : s = t := by
  cases s
  cases t
  exact congrArg String.mk h

/-- Candidate identification: two candidates collide in the map exactly when
they share `(entity_type, normalized_name)`. -/
theorem entityKey_iff (e1 e2 : Entity) :
    entityKey e1 = entityKey e2 ↔
      (e1.entity_type = e2.entity_type ∧ e1.normalized_name = e2.normalized_name) := by
  constructor
  · intro h
    have hd : (entityKey e1).data = (entityKey e2).data := by rw [h]
    have hd1 : (typeDebug e1.entity_type).data ++ ':' :: e1.normalized_name.data
        = (typeDebug e2.entity_type).data ++ ':' :: e2.normalized_name.data := by
      simpa [entityKey, String.data_append] using hd
    obtain ⟨ht, hn⟩ := append_colon_inj _ _ _ _
      (typeDebug_colon_free e1.entity_type) (typeDebug_colon_free e2.entity_type) hd1
    exact ⟨typeDebug_inj _ _ (string_data_inj _ _ ht), string_data_inj _ _ hn⟩
  · intro ⟨ht, hn⟩
    unfold entityKey
    rw [ht, hn]

end Codex

namespace Codex

/-- The or-insert fold of `Entity::merge` over the other's attributes: an
existing binding wins, otherwise the other's first binding is taken. -/
theorem orInsertFold_find? (other : AMap String) : ∀ (self : AMap String) (k : String),
    AMap.find? (other.foldl (fun attrs kv =>
        if (AMap.find? attrs kv.1).isSome then attrs
        else AMap.insert attrs kv.1 kv.2) self) k =
      (match AMap.find? self k with
       | some v => some v
       | none => AMap.find? other k) := by
  induction other with
  | nil =>
      intro self k
      cases hsf : AMap.find? self k with
      | none => exact hsf
      | some v => exact hsf
  | cons kv rest ih =>
      obtain ⟨k', v'⟩ := kv
      intro self k
      rw [List.foldl_cons, ih]
      by_cases hk : k' = k
      · subst hk
        cases hsf : AMap.find? self k' with
        | some v => simp [hsf]
        | none => simp [hsf, AMap.find?_insert_self]
      · have hstep : AMap.find?
            (if (AMap.find? self k').isSome = true then self
             else AMap.insert self k' v') k = AMap.find? self k := by
          split
          · rfl
          · exact AMap.find?_insert_ne self k' k v' (fun hc => hk hc.symm)
        rw [hstep, AMap.find?_cons, if_neg hk]

/-- Count of mentions stored in an optional map bucket. -/
def mlen (o : Option Entity) : Nat :=
  (o.map (fun e => e.mentions.length)).getD 0

/-- Total mention count of the candidates keyed `K`. -/
def msum (K : String) : List Entity → Nat
  | [] => 0
  | e :: es => (if entityKey e = K then e.mentions.length else 0) + msum K es

theorem step_mlen (m : AMap Entity) (e : Entity) (K : String) :
    mlen (AMap.find? (extractStep m e) K) =
      mlen (AMap.find? m K) + (if entityKey e = K then e.mentions.length else 0) := by
  unfold extractStep
  split
  · rename_i ex hf
    by_cases hk : entityKey e = K
    · rw [← hk, AMap.find?_insert_self, hf, if_pos rfl]
      show (ex.mentions ++ e.mentions).length = ex.mentions.length + e.mentions.length
      exact List.length_append _ _
    · rw [if_neg hk, AMap.find?_insert_ne _ _ _ _ (fun hc : K = entityKey e => hk hc.symm)]
      omega
  · rename_i hf
    by_cases hk : entityKey e = K
    · rw [← hk, AMap.find?_insert_self, hf, if_pos rfl]
      show e.mentions.length = 0 + e.mentions.length
      omega
    · rw [if_neg hk, AMap.find?_insert_ne _ _ _ _ (fun hc : K = entityKey e => hk hc.symm)]
      omega

theorem step_isSome (m : AMap Entity) (e : Entity) (K : String) :
    (AMap.find? (extractStep m e) K).isSome =
      ((AMap.find? m K).isSome || (entityKey e == K)) := by
  unfold extractStep
  split
  · rename_i ex hf
    by_cases hk : entityKey e = K
    · rw [← hk, AMap.find?_insert_self, hf]
      simp
    · rw [AMap.find?_insert_ne _ _ _ _ (fun hc : K = entityKey e => hk hc.symm)]
      rw [beq_eq_false_iff_ne.mpr hk, Bool.or_false]
  · rename_i hf
    by_cases hk : entityKey e = K
    · rw [← hk, AMap.find?_insert_self, hf]
      simp
    · rw [AMap.find?_insert_ne _ _ _ _ (fun hc : K = entityKey e => hk hc.symm)]
      rw [beq_eq_false_iff_ne.mpr hk, Bool.or_false]

theorem foldlStep_mlen (cs : List Entity) : ∀ (m : AMap Entity) (K : String),
    mlen (AMap.find? (cs.foldl extractStep m) K) =
      mlen (AMap.find? m K) + msum K cs := by
  induction cs with
  | nil =>
      intro m K
      simp [msum]
  | cons e es ih =>
      intro m K
      rw [List.foldl_cons, ih, step_mlen]
      simp only [msum]
      omega

theorem foldlStep_isSome (cs : List Entity) : ∀ (m : AMap Entity) (K : String),
    (AMap.find? (cs.foldl extractStep m) K).isSome =
      ((AMap.find? m K).isSome || cs.any (fun e => entityKey e == K)) := by
  induction cs with
  | nil =>
      intro m K
      simp
  | cons e es ih =>
      intro m K
      rw [List.foldl_cons, ih, step_isSome, List.any_cons, Bool.or_assoc]

theorem msum_append (K : String) (l1 l2 : List Entity) :
    msum K (l1 ++ l2) = msum K l1 + msum K l2 := by
  induction l1 with
  | nil => simp [msum]
  | cons e es ih =>
      simp only [List.cons_append, msum, List.append_eq, ih]
      omega

/-- The per-chunk candidate lists, concatenated in chunk order. -/
def candidates (f : Chunk → List Entity) : List Chunk → List Entity
  | [] => []
  | c :: cs => f c ++ candidates f cs

theorem candidates_append (f : Chunk → List Entity) (l1 l2 : List Chunk) :
    candidates f (l1 ++ l2) = candidates f l1 ++ candidates f l2 := by
  induction l1 with
  | nil => rfl
  | cons c cs ih =>
      simp only [List.cons_append, candidates, List.append_eq, ih, List.append_assoc]

theorem extractMap_eq_candidates (f : Chunk → List Entity) :
    ∀ (chunks : List Chunk) (m : AMap Entity),
      chunks.foldl (fun m chunk => (f chunk).foldl extractStep m) m =
        (candidates f chunks).foldl extractStep m := by
  intro chunks
  induction chunks with
  | nil => intro m; rfl
  | cons c cs ih =>
      intro m
      simp only [List.foldl_cons, candidates, List.foldl_append]
      exact ih ((f c).foldl extractStep m)

end Codex

namespace Codex

/-- C6: `EntityExtractor::extract` (entity.rs lines 338-359) with
`Entity::merge` (lines 79-87), for an arbitrary per-chunk candidate
generator `f`: (1) two candidates are identified (mapped to the same
accumulator key) exactly when they share `(entity_type, normalized_name)`;
(2) merging concatenates the mention lists, unions the attributes with the
first writer winning on key conflicts, and takes the maximal confidence;
(3) the result keeps exactly the accumulated entities with
`confidence >= min_confidence`; (4) extracting the same chunk list twice
yields, per `(type, normalized_name)` key, the same single accumulator
entry with exactly twice the mentions. -/
theorem c6_extract_merge (minConf : ℚ) (f : Chunk → List Entity) (chunks : List Chunk) :
    (∀ e1 e2 : Entity, entityKey e1 = entityKey e2 ↔
        (e1.entity_type = e2.entity_type ∧ e1.normalized_name = e2.normalized_name)) ∧
    (∀ e1 e2 : Entity,
        (e1.merge e2).mentions = e1.mentions ++ e2.mentions ∧
        (e1.merge e2).confidence = max e1.confidence e2.confidence ∧
        ∀ k, AMap.find? (e1.merge e2).attributes k =
          (match AMap.find? e1.attributes k with
           | some v => some v
           | none => AMap.find? e2.attributes k)) ∧
    (∀ e, e ∈ extract minConf f chunks ↔
        (e ∈ AMap.values (extractMap f chunks) ∧ minConf ≤ e.confidence)) ∧
    (∀ K, (AMap.find? (extractMap f (chunks ++ chunks)) K).isSome
            = (AMap.find? (extractMap f chunks) K).isSome ∧
          mlen (AMap.find? (extractMap f (chunks ++ chunks)) K)
            = 2 * mlen (AMap.find? (extractMap f chunks) K)) := by
  refine ⟨entityKey_iff, ?_, ?_, ?_⟩
  · intro e1 e2
    refine ⟨rfl, rfl, ?_⟩
    intro k
    exact orInsertFold_find? e2.attributes e1.attributes k
  · intro e
    unfold extract
    rw [List.mem_filter]
    constructor
    · intro h
      exact ⟨h.1, by simpa using h.2⟩
    · intro h
      exact ⟨h.1, by simpa using h.2⟩
  · intro K
    have h1 : extractMap f chunks = (candidates f chunks).foldl extractStep [] :=
      extractMap_eq_candidates f chunks []
    have h2 : extractMap f (chunks ++ chunks)
        = (candidates f chunks ++ candidates f chunks).foldl extractStep [] := by
      unfold extractMap
      rw [extractMap_eq_candidates f (chunks ++ chunks) [], candidates_append]
    constructor
    · rw [h1, h2, foldlStep_isSome, foldlStep_isSome, List.any_append]
      simp [Bool.or_self]
    · rw [h1, h2, foldlStep_mlen, foldlStep_mlen, msum_append]
      show 0 + (msum K (candidates f chunks) + msum K (candidates f chunks))
          = 2 * (0 + msum K (candidates f chunks))
      omega

end Codex

namespace Codex

/-! ## Claim C8: `SemanticChunker::chunk` (`chunker.rs`)

Text is modelled as `List Char`; Rust byte positions are recovered through
the UTF-8 byte length of each char. Rust `trim` uses Unicode whitespace; the
model trims `Char.isWhitespace` (space, tab, CR, LF), which agrees with the
source on every input used below. `uuid` fresh chunk ids are modelled as
`""`; `f32` arithmetic (`overlap_fraction`) is exact rational arithmetic.
A byte slice taken off a char boundary panics in Rust; the model returns
`none` for the whole run in that case. -/

/-- UTF-8 byte length of a char. -/
def charLen (c : Char) : Nat :=
  if c.toNat < 0x80 then 1
  else if c.toNat < 0x800 then 2
  else if c.toNat < 0x10000 then 3
  else 4

/-- Rust `str::len` (UTF-8 byte length). -/
def byteLen : List Char → Nat
  | [] => 0
  | c :: t => charLen c + byteLen t

/-- All chars are ASCII (one UTF-8 byte each). -/
def AllAscii (l : List Char) : Prop :=
  ∀ c ∈ l, c.toNat < 128

/-- Whitespace as trimmed by the model (see the section comment). -/
def isRustWs (c : Char) : Bool :=
  c.isWhitespace

/-- Rust `str::trim_start`. -/
def rustTrimStart (l : List Char) : List Char :=
  l.dropWhile isRustWs

/-- Rust `str::trim_end`. -/
def rustTrimEnd (l : List Char) : List Char :=
  (l.reverse.dropWhile isRustWs).reverse

/-- Rust `str::trim`. -/
def rustTrim (l : List Char) : List Char :=
  rustTrimEnd (rustTrimStart l)

/-- The code-fence marker. -/
def codeFence : List Char :=
  "```".data

/-- Rust `str::find` (here: char index of the first occurrence). -/
def findIdx? (pat : List Char) : List Char → Option Nat
  | [] => if pat.isPrefixOf [] then some 0 else none
  | c :: t =>
      if pat.isPrefixOf (c :: t) then some 0
      else (findIdx? pat t).map (fun i => i + 1)

/-- Rust `str::contains` for a string pattern. -/
def containsSub (hay pat : List Char) : Bool :=
  (findIdx? pat hay).isSome

/-- Rust `str::split` by a (nonempty) string separator; `fuel` bounds the
number of splits (`text.length + 1` always suffices). -/
def splitOnAux (sep : List Char) : Nat → List Char → List (List Char)
  | 0, text => [text]
  | fuel + 1, text =>
      match findIdx? sep text with
      | none => [text]
      | some i => text.take i :: splitOnAux sep fuel (text.drop (i + sep.length))

/-- Rust `str::split` by a string separator. -/
def splitOn (sep text : List Char) : List (List Char) :=
  splitOnAux sep (text.length + 1) text

/-- Strip one trailing carriage return (part of Rust `str::lines`). -/
def stripCR (l : List Char) : List Char :=
  if l.getLast? = some '\r' then l.dropLast else l

/-- Rust `str::lines`: split on newlines, final line ending optional. -/
def rustLines (text : List Char) : List (List Char) :=
  if text = [] then []
  else
    let ps := splitOn ['\n'] text
    (if ps.getLast? = some [] then ps.dropLast else ps).map stripCR

/-- `SemanticChunker::detect_header_level` (chunker.rs lines 336-351). -/
def detectHeaderLevel (line : List Char) : Option Nat :=
  let t := rustTrim line
  if t.head? ≠ some '#' then none
  else
    let level := (t.takeWhile (fun c => c = '#')).length
    if 0 < level ∧ level ≤ 6 then
      let rest := t.drop level
      if rest.head? = some ' ' ∨ rest = [] then some level else none
    else none

/-- `SemanticChunker::is_list_item` (chunker.rs lines 354-360). -/
def isListItem (line : List Char) : Bool :=
  let t := rustTrim line
  "- ".data.isPrefixOf t || "* ".data.isPrefixOf t || "+ ".data.isPrefixOf t ||
    ((match t.head? with
      | some c => c.isDigit
      | none => false) && containsSub t ". ".data)

/-- Loop of `SemanticChunker::extract_code_block` (chunker.rs 363-382). -/
def extractCodeBlockAux : List (List Char) → Bool → List Char × Nat
  | [], _ => ([], 0)
  | l :: rest, inBlock =>
      if codeFence.isPrefixOf (rustTrim l) then
        if inBlock then (l ++ ['\n'], 1)
        else
          let r := extractCodeBlockAux rest true
          (l ++ ['\n'] ++ r.1, r.2 + 1)
      else
        let r := extractCodeBlockAux rest inBlock
        (l ++ ['\n'] ++ r.1, r.2 + 1)

/-- `SemanticChunker::extract_code_block`. -/
def extractCodeBlock (lines : List (List Char)) : List Char × Nat :=
  let r := extractCodeBlockAux lines false
  (rustTrimEnd r.1, r.2)

/-- Loop of `SemanticChunker::extract_list` (chunker.rs 385-403); the second
argument is the running line count. -/
def extractListAux : List (List Char) → Nat → List Char × Nat
  | [], _ => ([], 0)
  | l :: rest, cnt =>
      if ¬ isListItem l = true ∧ rustTrim l ≠ [] ∧ ¬ "  ".data.isPrefixOf l then
        ([], 0)
      else
        if rustTrim l = [] ∧ 1 ≤ cnt then (l ++ ['\n'], 1)
        else
          let r := extractListAux rest (cnt + 1)
          (l ++ ['\n'] ++ r.1, r.2 + 1)

/-- `SemanticChunker::extract_list`. -/
def extractList (lines : List (List Char)) : List Char × Nat :=
  let r := extractListAux lines 0
  (rustTrimEnd r.1, max r.2 1)

/-- Loop of `SemanticChunker::extract_paragraph` (chunker.rs 406-430). -/
def extractParagraphAux : List (List Char) → List Char × Nat
  | [] => ([], 0)
  | l :: rest =>
      if rustTrim l = [] then ([], 1)
      else if (detectHeaderLevel l).isSome ∨ codeFence.isPrefixOf (rustTrim l) ∨
          isListItem l = true then ([], 0)
      else
        let r := extractParagraphAux rest
        (l ++ ['\n'] ++ r.1, r.2 + 1)

/-- `SemanticChunker::extract_paragraph`. -/
def extractParagraph (lines : List (List Char)) : List Char × Nat :=
  let r := extractParagraphAux lines
  (rustTrimEnd r.1, max r.2 1)

/-- `StructuralElement` (chunker.rs). -/
structure StructuralElement where
  content : List Char
  element_type : ChunkType
  start_offset : Nat
  end_offset : Nat
  metadata : ChunkMetadata
deriving DecidableEq

/-- `ChunkerConfig` (chunker.rs). -/
structure ChunkerConfig where
  target_tokens : Nat
  max_tokens : Nat
  overlap_fraction : ℚ
  min_tokens : Nat
  preserve_code_blocks : Bool
  include_headers : Bool
deriving DecidableEq

/-- `ChunkerConfig::default`. -/
def ChunkerConfig.default : ChunkerConfig :=
  { target_tokens := 512, max_tokens := 1024, overlap_fraction := 2/10,
    min_tokens := 50, preserve_code_blocks := true, include_headers := true }

end Codex

namespace Codex

/-- Advance the running byte offset over consumed lines (each line plus the
newline): the `current_offset += lines[i].len() + 1` loop of
`parse_structure`. -/
def advOff (off : Nat) (ls : List (List Char)) : Nat :=
  ls.foldl (fun a l => a + byteLen l + 1) off

/-- `SemanticChunker::parse_structure` (chunker.rs lines 220-333); the loop
advances by at least one line per iteration, so fuel `lines.length`
suffices. -/
def parseStructureAux : Nat → List (List Char) → Nat → Nat → List StructuralElement
  | 0, _, _, _ => []
  | _ + 1, [], _, _ => []
  | fuel + 1, line :: rest, i, curOff =>
      match detectHeaderLevel line with
      | some level =>
          { content := line, element_type := ChunkType.Section, start_offset := curOff,
            end_offset := curOff + byteLen line,
            metadata := { heading_level := some level,
                          title := some (String.mk (rustTrim (line.dropWhile (fun c => c = '#')))),
                          language := none, line_number := none, is_continuation := false } }
            :: parseStructureAux fuel rest (i + 1) (curOff + byteLen line + 1)
      | none =>
          if codeFence.isPrefixOf (rustTrim line) then
            let r := extractCodeBlock (line :: rest)
            let langRaw := rustTrim ((rustTrim line).drop 3)
            { content := r.1, element_type := ChunkType.Code, start_offset := curOff,
              end_offset := curOff + byteLen r.1,
              metadata := { heading_level := none, title := none,
                            language := if langRaw = [] then none else some (String.mk langRaw),
                            line_number := some (i + 1), is_continuation := false } }
              :: parseStructureAux fuel ((line :: rest).drop r.2) (i + r.2)
                  (advOff curOff ((line :: rest).take r.2))
          else if isListItem line then
            let r := extractList (line :: rest)
            { content := r.1, element_type := ChunkType.List, start_offset := curOff,
              end_offset := curOff + byteLen r.1,
              metadata := { heading_level := none, title := none, language := none,
                            line_number := some (i + 1), is_continuation := false } }
              :: parseStructureAux fuel ((line :: rest).drop r.2) (i + r.2)
                  (advOff curOff ((line :: rest).take r.2))
          else
            let r := extractParagraph (line :: rest)
            (if rustTrim r.1 ≠ [] then
              [{ content := r.1, element_type := ChunkType.Paragraph, start_offset := curOff,
                 end_offset := curOff + byteLen r.1,
                 metadata := { heading_level := none, title := none, language := none,
                               line_number := some (i + 1), is_continuation := false } }]
            else [])
              ++ parseStructureAux fuel ((line :: rest).drop r.2) (i + r.2)
                  (advOff curOff ((line :: rest).take r.2))

/-- `SemanticChunker::parse_structure`, entry point. -/
def parseStructure (text : List Char) : List StructuralElement :=
  parseStructureAux (rustLines text).length (rustLines text) 0 0

/-- A chunk as pushed by `chunk_element` / `split_recursive` (fresh uuid
modelled as `""`). -/
def mkChunk (content : List Char) (ct : ChunkType) (so eo : Nat) (md : ChunkMetadata) : Chunk :=
  { id := "", content := String.mk content, source := none, chunk_type := ct,
    start_offset := so, end_offset := eo, parent_id := none, metadata := md }

/-- The part-combining loop body of `split_recursive` (chunker.rs lines
524-555). The fold state is (accumulated output, `current_chunk`,
`current_offset`); `recFn` is the recursion at the next separator index. -/
def splitStep (cfg : ChunkerConfig) (recFn : List Char → Nat → List Chunk)
    (sep text : List Char) (base : Nat)
    (st : List Chunk × List Char × Nat) (part : List Char) :
    List Chunk × List Char × Nat :=
  if cfg.max_tokens < byteLen (if st.2.1 = [] then part else st.2.1 ++ sep ++ part) / 4 ∧
      st.2.1 ≠ [] then
    (st.1 ++ recFn st.2.1 st.2.2, part,
     base + (match findIdx? part text with
             | some j => byteLen (text.take j)
             | none => 0))
  else (st.1, (if st.2.1 = [] then part else st.2.1 ++ sep ++ part), st.2.2)

/-- The trailing `if !current_chunk.is_empty()` recursion of
`split_recursive` (chunker.rs lines 557-567). -/
def splitFinish (recFn : List Char → Nat → List Chunk)
    (st : List Chunk × List Char × Nat) : List Chunk :=
  if st.2.1 ≠ [] then st.1 ++ recFn st.2.1 st.2.2 else st.1

/-- `SemanticChunker::split_recursive` (chunker.rs lines 474-568): every
recursive call moves to the next separator, so the recursion is structural
on the remaining separator list. -/
def splitRec (cfg : ChunkerConfig) (ct : ChunkType) (md : ChunkMetadata) :
    List (List Char) → List Char → Nat → List Chunk
  | [], text, base =>
      if cfg.min_tokens ≤ byteLen text / 4 then
        [mkChunk text ct base (base + byteLen text) md]
      else []
  | sep :: rest, text, base =>
      if byteLen text / 4 ≤ cfg.max_tokens then
        (if cfg.min_tokens ≤ byteLen text / 4 then
          [mkChunk text ct base (base + byteLen text) md]
        else [])
      else
        let parts := splitOn sep text
        if parts.length = 1 then splitRec cfg ct md rest text base
        else
          splitFinish (fun t b => splitRec cfg ct md rest t b)
            (parts.foldl
              (splitStep cfg (fun t b => splitRec cfg ct md rest t b) sep text base)
              ([], [], base))

/-- `SemanticChunker::chunk_element` (chunker.rs lines 432-451) together
with `recursive_split` (lines 453-471). -/
def chunkElement (cfg : ChunkerConfig) (el : StructuralElement) : List Chunk :=
  if byteLen el.content / 4 ≤ cfg.max_tokens then
    [mkChunk el.content el.element_type el.start_offset el.end_offset el.metadata]
  else
    splitRec cfg el.element_type el.metadata
      ["\n\n".data, "\n".data, ". ".data, " ".data] el.content el.start_offset

/-- Drop exactly `b` bytes off the front; `none` when `b` is not a char
boundary (a Rust byte-slice panic). -/
def byteDropB : List Char → Nat → Option (List Char)
  | l, 0 => some l
  | [], _ + 1 => none
  | c :: t, b + 1 =>
      if charLen c ≤ b + 1 then byteDropB t (b + 1 - charLen c) else none

/-- Body of the `apply_overlap` loop (chunker.rs lines 583-593): prefix the
chunk with the tail of the previous chunk; `none` models the byte-slice
panic `&prev.content[prev.content.len() - overlap_chars..]` off a char
boundary. -/
def overlapStep (ov : Nat) (result : List Chunk) (chunk : Chunk) : Option Chunk :=
  if result ≠ [] ∧ 0 < ov then
    match result.getLast? with
    | some prev =>
        if ov < byteLen prev.content.data then
          match byteDropB prev.content.data (byteLen prev.content.data - ov) with
          | some overlap =>
              some { chunk with
                       content := String.mk (overlap ++ chunk.content.data),
                       metadata := { chunk.metadata with is_continuation := true } }
          | none => none
        else some chunk
    | none => some chunk
  else some chunk

/-- Loop of `SemanticChunker::apply_overlap` (chunker.rs lines 571-597). -/
def applyOverlapAux (ov : Nat) : List Chunk → List Chunk → Option (List Chunk)
  | result, [] => some result
  | result, chunk :: rest =>
      match overlapStep ov result chunk with
      | some c => applyOverlapAux ov (result ++ [c]) rest
      | none => none

/-- `SemanticChunker::apply_overlap`; `overlap_chars` is the `as usize`
truncation of `target_tokens as f32 * 4.0 * overlap_fraction`. -/
def applyOverlap (cfg : ChunkerConfig) (chunks : List Chunk) : Option (List Chunk) :=
  if chunks.length ≤ 1 then some chunks
  else
    applyOverlapAux (((cfg.target_tokens : ℚ) * 4 * cfg.overlap_fraction).floor.toNat) [] chunks

/-- `SemanticChunker::chunk` (chunker.rs lines 201-219): `none` models a
panicking run. -/
def chunk (cfg : ChunkerConfig) (content : String) : Option (List Chunk) :=
  let elements := parseStructure content.data
  let chunks := (elements.map (chunkElement cfg)).flatten
  if 0 < cfg.overlap_fraction then applyOverlap cfg chunks else some chunks

end Codex

namespace Codex

theorem chunk_eq (cfg : ChunkerConfig) (content : String) :
    chunk cfg content =
      if 0 < cfg.overlap_fraction then
        applyOverlap cfg ((parseStructure content.data).map (chunkElement cfg)).flatten
      else some ((parseStructure content.data).map (chunkElement cfg)).flatten := rfl

theorem applyOverlap_eq (cfg : ChunkerConfig) (chunks : List Chunk) :
    applyOverlap cfg chunks =
      if chunks.length ≤ 1 then some chunks
      else applyOverlapAux (((cfg.target_tokens : ℚ) * 4 * cfg.overlap_fraction).floor.toNat)
        [] chunks := rfl

/-- Config whose overlap window is two bytes: `target_tokens = 1`,
`overlap_fraction = 0.5`, `min_tokens = 0`. -/
def c8Cfg : ChunkerConfig :=
  { target_tokens := 1, max_tokens := 1024, overlap_fraction := 1/2,
    min_tokens := 0, preserve_code_blocks := true, include_headers := true }

/-- C8, counterexample. The claim states that `chunk` never panics on any
input and configuration, and that malformed input yields a single `Text`
chunk. On `"éa\n\nb"` with `c8Cfg`, `apply_overlap` slices
`&"éa"[3 - 2..]` through the middle of the two-byte `é` — a byte-boundary
panic (modelled `none`). And the plain line `"hello"` — which matches no
structural element — yields one `Paragraph` chunk (never `Text`; whitespace
input even yields no chunk at all). -/
theorem c8_counterexample :
    chunk c8Cfg "éa\n\nb" = none ∧
    chunk ChunkerConfig.default "hello"
      = some [mkChunk ("hello".data) ChunkType.Paragraph 0 5
          { heading_level := none, title := none, language := none,
            line_number := some 1, is_continuation := false }] ∧
    ChunkType.Paragraph ≠ ChunkType.Text ∧
    chunk ChunkerConfig.default "   " = some [] := by
  have hpos1 : (0:ℚ) < c8Cfg.overlap_fraction := by
    show (0:ℚ) < 1/2
    norm_num
  have hposd : (0:ℚ) < ChunkerConfig.default.overlap_fraction := by
    show (0:ℚ) < 2/10
    norm_num
  have hov : (((c8Cfg.target_tokens : ℚ) * 4 * c8Cfg.overlap_fraction).floor.toNat) = 2 := by
    have h1 : ((c8Cfg.target_tokens : ℚ) * 4 * c8Cfg.overlap_fraction) = 2 := by
      norm_num [c8Cfg]
    rw [h1]
    rfl
  refine ⟨?_, ?_, by decide, ?_⟩
  · rw [chunk_eq, if_pos hpos1, applyOverlap_eq,
      if_neg (by decide :
        ¬ ((parseStructure ("éa\n\nb" : String).data).map
            (chunkElement c8Cfg)).flatten.length ≤ 1),
      hov]
    decide
  · rw [chunk_eq, if_pos hposd, applyOverlap_eq,
      if_pos (by decide :
        ((parseStructure ("hello" : String).data).map
            (chunkElement ChunkerConfig.default)).flatten.length ≤ 1)]
    decide
  · rw [chunk_eq, if_pos hposd, applyOverlap_eq,
      if_pos (by decide :
        ((parseStructure ("   " : String).data).map
            (chunkElement ChunkerConfig.default)).flatten.length ≤ 1)]
    decide

end Codex

namespace Codex

/-- Fold invariant preservation, with list membership available. -/
theorem foldl_inv_mem {σ β : Type} (p : σ → Prop) (f : σ → β → σ) :
    ∀ (l : List β), (∀ s x, x ∈ l → p s → p (f s x)) → ∀ s, p s → p (l.foldl f s) := by
  intro l
  induction l with
  | nil => intro _ s hs; exact hs
  | cons y ys ih =>
      intro hstep s hs
      exact ih (fun s x hx hp => hstep s x (List.mem_cons_of_mem _ hx) hp)
        (f s y) (hstep s y (List.mem_cons_self _ _) hs)

theorem allAscii_of_subset {l' l : List Char} (hsub : ∀ c ∈ l', c ∈ l)
    (h : AllAscii l) : AllAscii l' :=
  fun c hc => h c (hsub c hc)

theorem allAscii_append {a b : List Char} (ha : AllAscii a) (hb : AllAscii b) :
    AllAscii (a ++ b) := by
  intro c hc
  rcases List.mem_append.mp hc with h | h
  · exact ha c h
  · exact hb c h

theorem allAscii_nl : AllAscii ['\n'] := by
  unfold AllAscii
  decide

theorem mem_rustTrimEnd {c : Char} {l : List Char} (hc : c ∈ rustTrimEnd l) : c ∈ l := by
  unfold rustTrimEnd at hc
  rw [List.mem_reverse] at hc
  have h2 := (List.dropWhile_sublist isRustWs).subset hc
  rwa [List.mem_reverse] at h2

theorem mem_rustTrim {c : Char} {l : List Char} (hc : c ∈ rustTrim l) : c ∈ l := by
  unfold rustTrim at hc
  have h1 := mem_rustTrimEnd hc
  unfold rustTrimStart at h1
  exact (List.dropWhile_sublist isRustWs).subset h1

theorem charLen_ascii {c : Char} (h : c.toNat < 128) : charLen c = 1 := by
  unfold charLen
  rw [if_pos h]

theorem byteLen_ascii : ∀ {l : List Char}, AllAscii l → byteLen l = l.length := by
  intro l
  induction l with
  | nil => intro _; rfl
  | cons c t ih =>
      intro h
      have hc : charLen c = 1 := charLen_ascii (h c (List.mem_cons_self _ _))
      have ht : byteLen t = t.length := ih (fun x hx => h x (List.mem_cons_of_mem _ hx))
      simp only [byteLen, List.length_cons, hc, ht]
      omega

theorem byteDropB_ascii : ∀ (l : List Char) (b : Nat), AllAscii l → b ≤ l.length →
    byteDropB l b = some (l.drop b) := by
  intro l
  induction l with
  | nil =>
      intro b _ hb
      cases b with
      | zero => rfl
      | succ b' => exact absurd hb (Nat.not_succ_le_zero b')
  | cons c t ih =>
      intro b h hb
      cases b with
      | zero => rfl
      | succ b' =>
          have hc : charLen c = 1 := charLen_ascii (h c (List.mem_cons_self _ _))
          have hstep : byteDropB (c :: t) (b' + 1) =
              if charLen c ≤ b' + 1 then byteDropB t (b' + 1 - charLen c) else none := rfl
          rw [hstep, hc, if_pos (by omega)]
          have hb' : b' ≤ t.length := by
            simp only [List.length_cons] at hb
            omega
          have := ih b' (fun x hx => h x (List.mem_cons_of_mem _ hx)) hb'
          simpa using this

theorem overlapStep_type (ov : Nat) (result : List Chunk) (ch c : Chunk)
    (h : overlapStep ov result ch = some c) : c.chunk_type = ch.chunk_type := by
  unfold overlapStep at h
  split at h
  · split at h
    · split at h
      · split at h
        · rw [← Option.some.inj h]
        · exact Option.noConfusion h
      · rw [← Option.some.inj h]
    · rw [← Option.some.inj h]
  · rw [← Option.some.inj h]

theorem overlapStep_ascii (ov : Nat) (result : List Chunk) (ch : Chunk)
    (hres : ∀ x ∈ result, AllAscii x.content.data)
    (hch : AllAscii ch.content.data) :
    ∃ c, overlapStep ov result ch = some c ∧ AllAscii c.content.data := by
  unfold overlapStep
  split
  · split
    · rename_i prev hlast
      have hprev : AllAscii prev.content.data :=
        hres prev (list_mem_of_getLast? result prev hlast)
      by_cases hlen : ov < byteLen prev.content.data
      · rw [if_pos hlen]
        have hbl : byteLen prev.content.data = prev.content.data.length :=
          byteLen_ascii hprev
        have hdrop := byteDropB_ascii prev.content.data
          (byteLen prev.content.data - ov) hprev (by omega)
        rw [hdrop]
        refine ⟨_, rfl, ?_⟩
        show AllAscii ((prev.content.data.drop (byteLen prev.content.data - ov))
          ++ ch.content.data)
        exact allAscii_append
          (allAscii_of_subset (fun x hx => List.drop_subset _ _ hx) hprev) hch
      · rw [if_neg hlen]
        exact ⟨ch, rfl, hch⟩
    · exact ⟨ch, rfl, hch⟩
  · exact ⟨ch, rfl, hch⟩

theorem applyOverlapAux_types (ov : Nat) :
    ∀ (rem result out : List Chunk),
      applyOverlapAux ov result rem = some out →
      (∀ c ∈ result, c.chunk_type ≠ ChunkType.Text) →
      (∀ c ∈ rem, c.chunk_type ≠ ChunkType.Text) →
      ∀ c ∈ out, c.chunk_type ≠ ChunkType.Text := by
  intro rem
  induction rem with
  | nil =>
      intro result out h hres _
      have heq : result = out := Option.some.inj h
      intro c hc
      exact hres c (heq ▸ hc)
  | cons ch rest ih =>
      intro result out h hres hrem
      unfold applyOverlapAux at h
      split at h
      · rename_i c' hstep
        refine ih (result ++ [c']) out h ?_ (fun x hx => hrem x (List.mem_cons_of_mem _ hx))
        intro x hx
        rcases List.mem_append.mp hx with hx | hx
        · exact hres x hx
        · rw [List.mem_singleton.mp hx, overlapStep_type ov result ch c' hstep]
          exact hrem ch (List.mem_cons_self _ _)
      · exact Option.noConfusion h

theorem applyOverlapAux_ascii (ov : Nat) :
    ∀ (rem result : List Chunk),
      (∀ c ∈ result, AllAscii c.content.data) →
      (∀ c ∈ rem, AllAscii c.content.data) →
      (applyOverlapAux ov result rem).isSome = true := by
  intro rem
  induction rem with
  | nil => intro result _ _; rfl
  | cons ch rest ih =>
      intro result hres hrem
      obtain ⟨c', hstep, hc'⟩ := overlapStep_ascii ov result ch hres
        (hrem ch (List.mem_cons_self _ _))
      have hnext : applyOverlapAux ov result (ch :: rest) =
          applyOverlapAux ov (result ++ [c']) rest := by
        have hdef : applyOverlapAux ov result (ch :: rest) =
            (match overlapStep ov result ch with
             | some c => applyOverlapAux ov (result ++ [c]) rest
             | none => none) := rfl
        rw [hdef, hstep]
      rw [hnext]
      refine ih (result ++ [c']) ?_ (fun x hx => hrem x (List.mem_cons_of_mem _ hx))
      intro x hx
      rcases List.mem_append.mp hx with hx | hx
      · exact hres x hx
      · rw [List.mem_singleton.mp hx]
        exact hc'

end Codex

namespace Codex

theorem splitOnAux_subset (sep : List Char) : ∀ (fuel : Nat) (text : List Char),
    ∀ p ∈ splitOnAux sep fuel text, ∀ c ∈ p, c ∈ text := by
  intro fuel
  induction fuel with
  | zero =>
      intro text p hp c hc
      rw [← List.mem_singleton.mp hp]
      exact hc
  | succ f ih =>
      intro text p hp c hc
      have hd : splitOnAux sep (f + 1) text =
          (match findIdx? sep text with
           | none => [text]
           | some i => text.take i :: splitOnAux sep f (text.drop (i + sep.length))) := rfl
      rw [hd] at hp
      cases hf : findIdx? sep text with
      | none =>
          rw [hf] at hp
          rw [← List.mem_singleton.mp hp]
          exact hc
      | some i =>
          rw [hf] at hp
          rcases List.mem_cons.mp hp with h | h
          · subst h
            exact (List.take_sublist i text).subset hc
          · exact List.drop_subset _ _ (ih (text.drop (i + sep.length)) p h c hc)

theorem splitOn_subset (sep text : List Char) :
    ∀ p ∈ splitOn sep text, ∀ c ∈ p, c ∈ text :=
  splitOnAux_subset sep (text.length + 1) text

theorem splitRec_cons (cfg : ChunkerConfig) (ct : ChunkType) (md : ChunkMetadata)
    (sep : List Char) (rest : List (List Char)) (text : List Char) (base : Nat) :
    splitRec cfg ct md (sep :: rest) text base =
      if byteLen text / 4 ≤ cfg.max_tokens then
        (if cfg.min_tokens ≤ byteLen text / 4 then
          [mkChunk text ct base (base + byteLen text) md]
        else [])
      else if (splitOn sep text).length = 1 then splitRec cfg ct md rest text base
      else
        splitFinish (fun t b => splitRec cfg ct md rest t b)
          ((splitOn sep text).foldl
            (splitStep cfg (fun t b => splitRec cfg ct md rest t b) sep text base)
            ([], [], base)) := rfl

theorem splitStep_fst_type (cfg : ChunkerConfig) (recFn : List Char → Nat → List Chunk)
    (sep text : List Char) (base : Nat) (ct : ChunkType)
    (hrec : ∀ cur off, ∀ x ∈ recFn cur off, x.chunk_type = ct) :
    ∀ st part, (∀ x ∈ st.1, x.chunk_type = ct) →
      ∀ x ∈ (splitStep cfg recFn sep text base st part).1, x.chunk_type = ct := by
  intro st part hst x hx
  unfold splitStep at hx
  by_cases hcond : cfg.max_tokens <
      byteLen (if st.2.1 = [] then part else st.2.1 ++ sep ++ part) / 4 ∧ st.2.1 ≠ []
  · rw [if_pos hcond] at hx
    rcases List.mem_append.mp hx with h | h
    · exact hst x h
    · exact hrec st.2.1 st.2.2 x h
  · rw [if_neg hcond] at hx
    exact hst x hx

theorem splitFinish_type (recFn : List Char → Nat → List Chunk)
    (st : List Chunk × List Char × Nat) (ct : ChunkType)
    (hrec : ∀ cur off, ∀ x ∈ recFn cur off, x.chunk_type = ct)
    (hst : ∀ x ∈ st.1, x.chunk_type = ct) :
    ∀ x ∈ splitFinish recFn st, x.chunk_type = ct := by
  intro x hx
  unfold splitFinish at hx
  split at hx
  · rcases List.mem_append.mp hx with h | h
    · exact hst x h
    · exact hrec st.2.1 st.2.2 x h
  · exact hst x hx

theorem splitRec_type (cfg : ChunkerConfig) (ct : ChunkType) (md : ChunkMetadata) :
    ∀ (seps : List (List Char)) (text : List Char) (base : Nat),
      ∀ c ∈ splitRec cfg ct md seps text base, c.chunk_type = ct := by
  intro seps
  induction seps with
  | nil =>
      intro text base c hc
      unfold splitRec at hc
      split at hc
      · rw [List.mem_singleton.mp hc]
        rfl
      · cases hc
  | cons sep rest ih =>
      intro text base c hc
      rw [splitRec_cons] at hc
      split at hc
      · split at hc
        · rw [List.mem_singleton.mp hc]
          rfl
        · cases hc
      · split at hc
        · exact ih text base c hc
        · refine splitFinish_type _ _ ct (fun cur off => ih cur off) ?_ c hc
          refine foldl_inv_mem
            (fun st => ∀ x ∈ st.1, x.chunk_type = ct) _ (splitOn sep text)
            (fun st part _ hst =>
              splitStep_fst_type cfg _ sep text base ct (fun cur off => ih cur off) st part hst)
            ([], [], base) ?_
          intro x hx
          cases hx

theorem allAscii_nil : AllAscii [] := by
  intro c hc
  cases hc

theorem splitStep_ascii_inv (cfg : ChunkerConfig) (recFn : List Char → Nat → List Chunk)
    (sep text : List Char) (base : Nat)
    (hsep : AllAscii sep) (htext : AllAscii text)
    (hrec : ∀ cur off, AllAscii cur → ∀ x ∈ recFn cur off, AllAscii x.content.data) :
    ∀ st part, part ∈ splitOn sep text →
      ((∀ x ∈ st.1, AllAscii x.content.data) ∧ AllAscii st.2.1) →
      ((∀ x ∈ (splitStep cfg recFn sep text base st part).1, AllAscii x.content.data) ∧
        AllAscii (splitStep cfg recFn sep text base st part).2.1) := by
  intro st part hpart hst
  have hpa : AllAscii part := allAscii_of_subset (splitOn_subset sep text part hpart) htext
  unfold splitStep
  by_cases hcond : cfg.max_tokens <
      byteLen (if st.2.1 = [] then part else st.2.1 ++ sep ++ part) / 4 ∧ st.2.1 ≠ []
  · rw [if_pos hcond]
    refine ⟨?_, hpa⟩
    intro x hx
    rcases List.mem_append.mp hx with h | h
    · exact hst.1 x h
    · exact hrec st.2.1 st.2.2 hst.2 x h
  · rw [if_neg hcond]
    refine ⟨hst.1, ?_⟩
    by_cases he : st.2.1 = []
    · rw [if_pos he]
      exact hpa
    · rw [if_neg he]
      exact allAscii_append (allAscii_append hst.2 hsep) hpa

theorem splitFinish_ascii (recFn : List Char → Nat → List Chunk)
    (st : List Chunk × List Char × Nat)
    (hrec : ∀ cur off, AllAscii cur → ∀ x ∈ recFn cur off, AllAscii x.content.data)
    (hst : (∀ x ∈ st.1, AllAscii x.content.data) ∧ AllAscii st.2.1) :
    ∀ x ∈ splitFinish recFn st, AllAscii x.content.data := by
  intro x hx
  unfold splitFinish at hx
  split at hx
  · rcases List.mem_append.mp hx with h | h
    · exact hst.1 x h
    · exact hrec st.2.1 st.2.2 hst.2 x h
  · exact hst.1 x hx

theorem splitRec_ascii (cfg : ChunkerConfig) (ct : ChunkType) (md : ChunkMetadata) :
    ∀ (seps : List (List Char)), (∀ s ∈ seps, AllAscii s) →
      ∀ (text : List Char) (base : Nat), AllAscii text →
        ∀ c ∈ splitRec cfg ct md seps text base, AllAscii c.content.data := by
  intro seps
  induction seps with
  | nil =>
      intro _ text base htext c hc
      unfold splitRec at hc
      split at hc
      · rw [List.mem_singleton.mp hc]
        exact htext
      · cases hc
  | cons sep rest ih =>
      intro hseps text base htext c hc
      have hsep : AllAscii sep := hseps sep (List.mem_cons_self _ _)
      have hrest : ∀ s ∈ rest, AllAscii s := fun s hs => hseps s (List.mem_cons_of_mem _ hs)
      rw [splitRec_cons] at hc
      split at hc
      · split at hc
        · rw [List.mem_singleton.mp hc]
          exact htext
        · cases hc
      · split at hc
        · exact ih hrest text base htext c hc
        · refine splitFinish_ascii _ _ (fun cur off hcur => ih hrest cur off hcur) ?_ c hc
          refine foldl_inv_mem
            (fun st => (∀ x ∈ st.1, AllAscii x.content.data) ∧ AllAscii st.2.1) _
            (splitOn sep text)
            (fun st part hp hst =>
              splitStep_ascii_inv cfg _ sep text base hsep htext
                (fun cur off hcur => ih hrest cur off hcur) st part hp hst)
            ([], [], base) ⟨fun x hx => absurd hx (List.not_mem_nil x), allAscii_nil⟩

theorem stripCR_subset {c : Char} {l : List Char} (hc : c ∈ stripCR l) : c ∈ l := by
  unfold stripCR at hc
  split at hc
  · exact (List.dropLast_sublist l).subset hc
  · exact hc

theorem rustLines_mem_subset (text : List Char) :
    ∀ l ∈ rustLines text, ∀ c ∈ l, c ∈ text := by
  intro l hl c hc
  unfold rustLines at hl
  split at hl
  · cases hl
  · obtain ⟨p, hp, hpl⟩ := List.mem_map.mp hl
    have hp' : p ∈ splitOn ['\n'] text := by
      revert hp
      split
      · intro hp
        exact (List.dropLast_sublist _).subset hp
      · intro hp
        exact hp
    rw [← hpl] at hc
    exact splitOn_subset ['\n'] text p hp' c (stripCR_subset hc)

end Codex

namespace Codex

theorem extractCodeBlockAux_ascii :
    ∀ (lines : List (List Char)) (b : Bool), (∀ l ∈ lines, AllAscii l) →
      AllAscii (extractCodeBlockAux lines b).1 := by
  intro lines
  induction lines with
  | nil => intro b _; exact allAscii_nil
  | cons l rest ih =>
      intro b hl
      have hl0 : AllAscii l := hl l (List.mem_cons_self _ _)
      have hrest : ∀ x ∈ rest, AllAscii x := fun x hx => hl x (List.mem_cons_of_mem _ hx)
      unfold extractCodeBlockAux
      split
      · split
        · exact allAscii_append hl0 allAscii_nl
        · exact allAscii_append (allAscii_append hl0 allAscii_nl) (ih true hrest)
      · exact allAscii_append (allAscii_append hl0 allAscii_nl) (ih b hrest)

theorem extractCodeBlock_ascii (lines : List (List Char))
    (h : ∀ l ∈ lines, AllAscii l) : AllAscii (extractCodeBlock lines).1 :=
  allAscii_of_subset (fun _ hc => mem_rustTrimEnd hc) (extractCodeBlockAux_ascii lines false h)

theorem extractListAux_ascii :
    ∀ (lines : List (List Char)) (cnt : Nat), (∀ l ∈ lines, AllAscii l) →
      AllAscii (extractListAux lines cnt).1 := by
  intro lines
  induction lines with
  | nil => intro cnt _; exact allAscii_nil
  | cons l rest ih =>
      intro cnt hl
      have hl0 : AllAscii l := hl l (List.mem_cons_self _ _)
      have hrest : ∀ x ∈ rest, AllAscii x := fun x hx => hl x (List.mem_cons_of_mem _ hx)
      unfold extractListAux
      split
      · exact allAscii_nil
      · split
        · exact allAscii_append hl0 allAscii_nl
        · exact allAscii_append (allAscii_append hl0 allAscii_nl) (ih (cnt + 1) hrest)

theorem extractList_ascii (lines : List (List Char))
    (h : ∀ l ∈ lines, AllAscii l) : AllAscii (extractList lines).1 :=
  allAscii_of_subset (fun _ hc => mem_rustTrimEnd hc) (extractListAux_ascii lines 0 h)

theorem extractParagraphAux_ascii :
    ∀ (lines : List (List Char)), (∀ l ∈ lines, AllAscii l) →
      AllAscii (extractParagraphAux lines).1 := by
  intro lines
  induction lines with
  | nil => intro _; exact allAscii_nil
  | cons l rest ih =>
      intro hl
      have hl0 : AllAscii l := hl l (List.mem_cons_self _ _)
      have hrest : ∀ x ∈ rest, AllAscii x := fun x hx => hl x (List.mem_cons_of_mem _ hx)
      unfold extractParagraphAux
      split
      · exact allAscii_nil
      · split
        · exact allAscii_nil
        · exact allAscii_append (allAscii_append hl0 allAscii_nl) (ih hrest)

theorem extractParagraph_ascii (lines : List (List Char))
    (h : ∀ l ∈ lines, AllAscii l) : AllAscii (extractParagraph lines).1 :=
  allAscii_of_subset (fun _ hc => mem_rustTrimEnd hc) (extractParagraphAux_ascii lines h)

end Codex

namespace Codex

theorem parse_type :
    ∀ (fuel : Nat) (rem : List (List Char)) (i off : Nat),
      ∀ el ∈ parseStructureAux fuel rem i off, el.element_type ≠ ChunkType.Text := by
  intro fuel
  induction fuel with
  | zero =>
      intro rem i off el hel
      cases hel
  | succ f ih =>
      intro rem i off el hel
      cases rem with
      | nil => cases hel
      | cons line rest =>
          unfold parseStructureAux at hel
          split at hel
          · rcases List.mem_cons.mp hel with h | h
            · rw [h]
              intro hx
              exact ChunkType.noConfusion hx
            · exact ih rest (i + 1) _ el h
          · split at hel
            · rcases List.mem_cons.mp hel with h | h
              · rw [h]
                intro hx
                exact ChunkType.noConfusion hx
              · exact ih _ _ _ el h
            · split at hel
              · rcases List.mem_cons.mp hel with h | h
                · rw [h]
                  intro hx
                  exact ChunkType.noConfusion hx
                · exact ih _ _ _ el h
              · rcases List.mem_append.mp hel with h | h
                · revert h
                  split
                  · intro h
                    rw [List.mem_singleton.mp h]
                    intro hx
                    exact ChunkType.noConfusion hx
                  · intro h
                    cases h
                · exact ih _ _ _ el h

theorem parse_ascii :
    ∀ (fuel : Nat) (rem : List (List Char)) (i off : Nat),
      (∀ l ∈ rem, AllAscii l) →
      ∀ el ∈ parseStructureAux fuel rem i off, AllAscii el.content := by
  intro fuel
  induction fuel with
  | zero =>
      intro rem i off _ el hel
      cases hel
  | succ f ih =>
      intro rem i off hrem el hel
      cases rem with
      | nil => cases hel
      | cons line rest =>
          have hline : AllAscii line := hrem line (List.mem_cons_self _ _)
          have hrest : ∀ l ∈ rest, AllAscii l :=
            fun l hl => hrem l (List.mem_cons_of_mem _ hl)
          have hdropN : ∀ n, ∀ l ∈ (line :: rest).drop n, AllAscii l :=
            fun n l hl => hrem l (List.drop_subset n _ hl)
          unfold parseStructureAux at hel
          split at hel
          · rcases List.mem_cons.mp hel with h | h
            · rw [h]
              exact hline
            · exact ih rest (i + 1) _ hrest el h
          · split at hel
            · rcases List.mem_cons.mp hel with h | h
              · rw [h]
                exact extractCodeBlock_ascii (line :: rest) hrem
              · exact ih _ _ _ (hdropN _) el h
            · split at hel
              · rcases List.mem_cons.mp hel with h | h
                · rw [h]
                  exact extractList_ascii (line :: rest) hrem
                · exact ih _ _ _ (hdropN _) el h
              · rcases List.mem_append.mp hel with h | h
                · revert h
                  split
                  · intro h
                    rw [List.mem_singleton.mp h]
                    exact extractParagraph_ascii (line :: rest) hrem
                  · intro h
                    cases h
                · exact ih _ _ _ (hdropN _) el h

theorem chunkElement_type (cfg : ChunkerConfig) (el : StructuralElement) :
    ∀ c ∈ chunkElement cfg el, c.chunk_type = el.element_type := by
  intro c hc
  unfold chunkElement at hc
  split at hc
  · rw [List.mem_singleton.mp hc]
    rfl
  · exact splitRec_type cfg el.element_type el.metadata _ el.content el.start_offset c hc

theorem chunkElement_ascii (cfg : ChunkerConfig) (el : StructuralElement)
    (h : AllAscii el.content) : ∀ c ∈ chunkElement cfg el, AllAscii c.content.data := by
  intro c hc
  unfold chunkElement at hc
  split at hc
  · rw [List.mem_singleton.mp hc]
    exact h
  · refine splitRec_ascii cfg el.element_type el.metadata _ ?_ el.content el.start_offset h c hc
    unfold AllAscii
    decide

end Codex

namespace Codex

/-- C8, amended. `SemanticChunker::chunk` (chunker.rs 201-219) never
produces a `Text` chunk: the fallback for plain input is a `Paragraph`
chunk (whitespace-only input yields no chunk at all — see the
counterexample), and every produced chunk keeps its element's type. It
returns without panicking whenever no overlap is configured
(`overlap_fraction <= 0`), and for every configuration on ASCII input; the
sole panic site is the byte slice of `apply_overlap` on a non-ASCII
boundary (refuting the unconditional totality of the claim). -/
theorem c8_amended (cfg : ChunkerConfig) (text : String) :
    (∀ cs, chunk cfg text = some cs → ∀ c ∈ cs, c.chunk_type ≠ ChunkType.Text) ∧
    (¬ 0 < cfg.overlap_fraction → (chunk cfg text).isSome = true) ∧
    (AllAscii text.data → (chunk cfg text).isSome = true) := by
  have htypes : ∀ c ∈ ((parseStructure text.data).map (chunkElement cfg)).flatten,
      c.chunk_type ≠ ChunkType.Text := by
    intro c hc
    rw [List.mem_flatten] at hc
    obtain ⟨s, hs, hcs⟩ := hc
    obtain ⟨el, hel, hsel⟩ := List.mem_map.mp hs
    rw [← hsel] at hcs
    rw [chunkElement_type cfg el c hcs]
    exact parse_type _ _ _ _ el hel
  refine ⟨?_, ?_, ?_⟩
  · intro cs hcs c hc
    rw [chunk_eq] at hcs
    split at hcs
    · rw [applyOverlap_eq] at hcs
      split at hcs
      · rw [← Option.some.inj hcs] at hc
        exact htypes c hc
      · exact applyOverlapAux_types _ _ [] cs hcs
          (fun x hx => absurd hx (List.not_mem_nil x)) htypes c hc
    · rw [← Option.some.inj hcs] at hc
      exact htypes c hc
  · intro hno
    rw [chunk_eq, if_neg hno]
    rfl
  · intro hascii
    have hcontents : ∀ c ∈ ((parseStructure text.data).map (chunkElement cfg)).flatten,
        AllAscii c.content.data := by
      intro c hc
      rw [List.mem_flatten] at hc
      obtain ⟨s, hs, hcs⟩ := hc
      obtain ⟨el, hel, hsel⟩ := List.mem_map.mp hs
      rw [← hsel] at hcs
      have helc : AllAscii el.content :=
        parse_ascii _ _ _ _
          (fun l hl c2 hc2 => hascii c2 (rustLines_mem_subset text.data l hl c2 hc2))
          el hel
      exact chunkElement_ascii cfg el helc c hcs
    rw [chunk_eq]
    split
    · rw [applyOverlap_eq]
      split
      · rfl
      · exact applyOverlapAux_ascii _ _ []
          (fun x hx => absurd hx (List.not_mem_nil x)) hcontents
    · rfl

/-- Witness for `c8_amended`: the ASCII input `"hello"` chunks without
panicking under the default configuration. -/
theorem c8_amended_witness :
    AllAscii ("hello" : String).data ∧
    (chunk ChunkerConfig.default "hello").isSome = true :=
  ⟨by unfold AllAscii; decide,
   (c8_amended ChunkerConfig.default "hello").2.2 (by unfold AllAscii; decide)⟩

end Codex
